import Mathlib

/-!
Verification of the mymalloc segregated-fits allocator (src/mm.c) against its
natural-language specification.

The heap is embedded shallowly: the managed region is a list of blocks in
address order (the directory, padding and prologue occupy the first
hBase = (LISTSIZE + 4) * WSIZE bytes, so the first real block's payload
address is hBase, exactly as after mm_init in the C source).  A block
carries its boundary-tag size (header included), its allocation bit and its
payload bytes as a function from payload offsets.  The segregated free lists
are kept as explicit per-class lists of (payload address, stored size)
entries, mirroring the intrusive predecessor/successor pointers plus the
header size that the C code reads.  Address arithmetic (NEXT_BLKP = bp +
size, footer-assisted left lookup) is performed literally on the addresses.

mm_init, mm_malloc, mm_free and mm_realloc are translated from src/mm.c.
The helper functions extend_heap, coalesce, place, add_free, pop_free and
align_size are declared in src/mm.c but their bodies are not part of the
provided source; they are modelled from the specification (sections 4.2,
4.3, 4.4 step 5 and 4.5 step 2) and marked as such in their doc comments.

The external region-growth primitive mem_sbrk is modelled by a byte budget
stored in the heap state: a growth request succeeds exactly when it fits in
the remaining budget, and the budget only decreases (the region never
shrinks, spec section 3).
-/

/-- WSIZE from src/mm.c: word size, size of a header/footer (64-bit build,
ALIGNMENT = sizeof pointer = 8). -/
def WSIZE : Nat := 8

/-- DSIZE from src/mm.c: double word. -/
def DSIZE : Nat := 2 * WSIZE

/-- CHUNKSIZE from src/mm.c: default extension size, (1 << 12) + DSIZE. -/
def CHUNKSIZE : Nat := 4096 + DSIZE

/-- INITSIZE from src/mm.c: initial extension size, (1 << 7) + DSIZE. -/
def INITSIZE : Nat := 128 + DSIZE

/-- LISTSIZE from src/mm.c: number of segregated free lists. -/
def LISTSIZE : Nat := 16

/-- ALIGN from src/mm.c: round up to the alignment unit (8 bytes). -/
def ALIGN (x : Nat) : Nat := ((x + (WSIZE - 1)) / WSIZE) * WSIZE

/-- Modelled from the spec: the body of align_size is not in src/mm.c.
Spec 4.4 step 2 rounds a requested payload size up to the alignment unit
and to the minimum block size; spec 3 fixes a block's size as payload plus
overhead, and the src comment in mm_malloc fixes the minimum block size at
4 words (header, predecessor link, successor link, footer).  So the rounded
block size is ALIGN(n + DSIZE) (payload plus header/footer overhead),
bounded below by 2 * DSIZE = 32 bytes. -/
def align_size (n : Nat) : Nat := max (ALIGN (n + DSIZE)) (2 * DSIZE)

/-- Modelled from the spec: the body of the size-to-class map is not in
src/mm.c (the source only exposes the freelists array accessor).  Spec 4.2
and design note 9 require any monotonic partition of sizes into LISTSIZE
classes; power-of-two thresholds starting at the minimum block size are
used here. -/
def classOf (sz : Nat) : Nat :=
  if sz < 64 then 0
  else if sz < 128 then 1
  else if sz < 256 then 2
  else if sz < 512 then 3
  else if sz < 1024 then 4
  else if sz < 2048 then 5
  else if sz < 4096 then 6
  else if sz < 8192 then 7
  else if sz < 16384 then 8
  else if sz < 32768 then 9
  else if sz < 65536 then 10
  else if sz < 131072 then 11
  else if sz < 262144 then 12
  else if sz < 524288 then 13
  else if sz < 1048576 then 14
  else 15

/-- Payload address of the first real block: the heap starts with one
padding word, LISTSIZE free-list head words, the prologue header and footer
and the epilogue header, so the first block created by extend_heap has its
payload at (LISTSIZE + 4) * WSIZE = 160, as laid out by mm_init in src/mm.c. -/
def hBase : Nat := (LISTSIZE + 4) * WSIZE

/-- A heap block: boundary-tag size in bytes (header included), allocation
bit, and payload bytes as a function from payload offsets.  Bytes that the
allocator itself owns inside a block (the header of an absorbed neighbour,
the footer, the intrusive list links of a free block) are not tracked by
data; no claim reads them. -/
structure Blk where
  size : Nat
  alloc : Bool
  data : Nat → Nat

/-- One entry of a segregated free list: payload address and the size the
block's header carried when the entry was inserted (the C code reads the
size via GET_SIZE(HDRP ...) at insertion and ordering checks). -/
abbrev FEntry := Nat × Nat

/-- The free-list directory: LISTSIZE class lists. -/
abbrev FreeLists := List (List FEntry)

/-- Allocator state: the real blocks between prologue and epilogue in
address order, the free-list directory, and the remaining byte budget of
the external region-growth primitive (mem_sbrk). -/
structure Heap where
  blocks : List Blk
  fl : FreeLists
  budget : Nat

/-- Total byte size of a run of blocks. -/
def sumSizes : List Blk → Nat
  | [] => 0
  | b :: bs => b.size + sumSizes bs

/-- Payload address of the epilogue sentinel: one past the last real block.
NEXT_BLKP of the last block lands here; GET_SIZE of its header is 0 in the
C heap, modelled by lookup returning none at this address. -/
def Heap.endBp (h : Heap) : Nat := hBase + sumSizes h.blocks

/-- Walk the block run from a base payload address and read the block whose
payload address is a (the codec's traversal: each step adds the current
block's header size). -/
def blkAt : List Blk → Nat → Nat → Option Blk
  | [], _, _ => none
  | b :: bs, base, a => if a = base then some b else blkAt bs (base + b.size) a

/-- Read the block at payload address a. -/
def Heap.lookup (h : Heap) (a : Nat) : Option Blk := blkAt h.blocks hBase a

/-- Boundary-tag view of the block at an address: (size, allocated). -/
def Heap.tagAt (h : Heap) (a : Nat) : Option (Nat × Bool) :=
  (h.lookup a).map (fun b => (b.size, b.alloc))

/-- Replace the block at a target payload address (size is preserved by all
uses: allocation-bit writes and payload writes). -/
def setAt (g : Blk → Blk) : List Blk → Nat → Nat → List Blk
  | [], _, _ => []
  | b :: bs, base, tgt => if tgt = base then g b :: bs else b :: setAt g bs (base + b.size) tgt

/-- Split the block at the target address into an allocated front part of
need bytes and a free remainder (spec 4.4 step 5: shrink the found block to
need and make the leftover a new free block). -/
def splitBlk (need : Nat) : List Blk → Nat → Nat → List Blk
  | [], _, _ => []
  | b :: bs, base, tgt =>
    if tgt = base then
      Blk.mk need true b.data ::
        Blk.mk (b.size - need) false (fun i => b.data (need + i)) :: bs
    else b :: splitBlk need bs (base + b.size) tgt

/-- Merge the block at the target address with its right neighbour into one
block whose allocation bit is al (boundary tags rewritten across the pair;
the absorbed header/footer words inside the merged block are not tracked). -/
def merge2At (al : Bool) : List Blk → Nat → Nat → List Blk
  | b :: b2 :: bs, base, tgt =>
    if tgt = base then
      Blk.mk (b.size + b2.size) al
        (fun i => if i < b.size then b.data i else b2.data (i - b.size)) :: bs
    else b :: merge2At al (b2 :: bs) (base + b.size) tgt
  | l, _, _ => l

/-- Find the left neighbour of address a via the footer-assisted backward
step: the block whose end address is a.  none models a left neighbour that
is the always-allocated prologue. -/
def blkLeft : List Blk → Nat → Nat → Option (Nat × Blk)
  | [], _, _ => none
  | b :: bs, base, a => if base + b.size = a then some (base, b) else blkLeft bs (base + b.size) a

/-- Modelled from the spec: the body of add_free is not in src/mm.c.
Spec 4.2: insert walks the class list of classOf(size) from the head and
places the block before the first entry whose size is greater or equal,
keeping the list ascending.  This is the list-level insertion. -/
def insEntry (e : FEntry) : List FEntry → List FEntry
  | [] => [e]
  | x :: xs => if e.2 ≤ x.2 then e :: x :: xs else x :: insEntry e xs

/-- Replace the n-th class list of the directory. -/
def modNth (f : List FEntry → List FEntry) : Nat → FreeLists → FreeLists
  | _, [] => []
  | 0, l :: ls => f l :: ls
  | n + 1, l :: ls => l :: modNth f n ls

/-- Modelled from the spec: the body of add_free is not in src/mm.c.
Insert a free block (payload address bp, header size sz) into its class's
list at the ascending position (spec 4.2). -/
def add_free (fl : FreeLists) (bp sz : Nat) : FreeLists :=
  modNth (insEntry (bp, sz)) (classOf sz) fl

/-- Modelled from the spec: the body of pop_free is not in src/mm.c.
Spec 4.2: remove splices the block out of its list.  Entry addresses are
unique in a consistent heap, so removing every entry carrying this address
coincides with the C splice. -/
def pop_free (fl : FreeLists) (bp : Nat) : FreeLists :=
  fl.map (fun l => l.filter (fun e => e.1 != bp))

/-- The merged block produced by absorbing the right neighbour y of x with
allocation bit al. -/
def mergedBlk (al : Bool) (x y : Blk) : Blk :=
  Blk.mk (x.size + y.size) al (fun i => if i < x.size then x.data i else y.data (i - x.size))

/-- The heap after one merge step of the coalescing engine at address p
(spec 4.5 step 2): remove the right neighbour (at p + sz1) and the block
itself from their lists, merge the boundary tags into one free block of
sz1 + sz2 bytes, re-insert the combined block. -/
def mergeHeap (h : Heap) (p sz1 sz2 : Nat) : Heap :=
  { h with blocks := merge2At false h.blocks hBase p,
           fl := add_free (pop_free (pop_free h.fl (p + sz1)) p) p (sz1 + sz2) }

/-- The heap after the in-place absorb of mm_realloc case 1 (src/mm.c lines
226-228): pop the next block (at address q) from its list and rewrite the
boundary tags at p across the combined bytes, allocated. -/
def absorbHeap (h : Heap) (p q : Nat) : Heap :=
  { h with blocks := merge2At true h.blocks hBase p, fl := pop_free h.fl q }

/-- The free-block scan of mm_malloc (src/mm.c lines 150-159), translated
literally: classes are visited in ascending index order and a class's head
is taken only when the class is non-empty and the head's stored size
strictly exceeds the rounded request (GET_SIZE(...) > size). -/
def findFit : FreeLists → Nat → Option FEntry
  | [], _ => none
  | l :: ls, need =>
    match l with
    | [] => findFit ls need
    | e :: _ => if need < e.2 then some e else findFit ls need

/-- Modelled from the spec: the body of place is not in src/mm.c.
Spec 4.4 steps 5-6: remove the chosen block from its list; if the leftover
after carving out need bytes is at least the minimum block size (2 * DSIZE),
split and re-insert the remainder, else allocate the whole block; return
the payload address of the allocated block. -/
def place (h : Heap) (bp need : Nat) : Option Nat × Heap :=
  match h.lookup bp with
  | none => (some bp, h)
  | some b =>
    let fl1 := pop_free h.fl bp
    if need + 2 * DSIZE ≤ b.size then
      (some bp,
        { h with blocks := splitBlk need h.blocks hBase bp,
                 fl := add_free fl1 (bp + need) (b.size - need) })
    else
      (some bp,
        { h with blocks := setAt (fun bb => Blk.mk bb.size true bb.data) h.blocks hBase bp,
                 fl := fl1 })

/-- Modelled from the spec: the body of coalesce is not in src/mm.c.
Spec 4.5 step 2, left half: inspect the left neighbour through the
footer-assisted backward step; if free, remove both blocks from their
lists, merge, and re-insert the combined block.  Returns the new heap and
the payload address of the resulting (possibly merged) free block. -/
def coalesceL (h1 : Heap) (bp : Nat) : Heap × Nat :=
  match h1.lookup bp with
  | none => (h1, bp)
  | some b1 =>
    match blkLeft h1.blocks hBase bp with
    | some lv =>
      if lv.2.alloc then (h1, bp)
      else (mergeHeap h1 lv.1 lv.2.size b1.size, lv.1)
    | none => (h1, bp)

/-- Modelled from the spec: the body of coalesce is not in src/mm.c.
First the right-neighbour merge, then the left-neighbour merge through the
footer-assisted backward step (coalesceL); blkLeft returns the block whose
end address is bp, so the mergeHeap pop at that block's end hits exactly
the stale entry of bp, as the C splice does. -/
def coalesce (h : Heap) (bp : Nat) : Heap × Nat :=
  match h.lookup bp with
  | none => (h, bp)
  | some b =>
    coalesceL
      (match h.lookup (bp + b.size) with
        | some nb => if nb.alloc then h else mergeHeap h bp b.size nb.size
        | none => h) bp

/-- Modelled from the spec: the body of extend_heap is not in src/mm.c.
Spec 4.3: round the request to alignment; fail without any mutation when
the external primitive cannot provide the bytes; otherwise format the new
bytes as one free block replacing the old epilogue, write a new epilogue,
insert the block and coalesce it with the immediately preceding block.
Returns the payload address of the resulting free block and the new heap. -/
def extend_heap (h : Heap) (bytes : Nat) : Option (Nat × Heap) :=
  let sz := ALIGN bytes
  if h.budget < sz then none
  else
    let nbp := h.endBp
    let h1 : Heap :=
      { blocks := h.blocks ++ [Blk.mk sz false (fun _ => 0)],
        fl := add_free h.fl nbp sz,
        budget := h.budget - sz }
    let r := coalesce h1 nbp
    some (r.2, r.1)

/-- mm_init from src/mm.c: obtain (LISTSIZE + 4) words for the directory,
padding and sentinels, then extend the heap by INITSIZE bytes; fail (none)
when either external request fails. -/
def mm_init (budget : Nat) : Option Heap :=
  if budget < (LISTSIZE + 4) * WSIZE then none
  else
    match extend_heap
        { blocks := [], fl := List.replicate LISTSIZE [],
          budget := budget - (LISTSIZE + 4) * WSIZE } INITSIZE with
    | none => none
    | some r => some r.2

/-- mm_malloc from src/mm.c: zero-size requests return NULL; otherwise round
the size, scan the free lists (findFit), extend the heap by
max(size, CHUNKSIZE) when the scan fails (returning NULL and leaving the
heap unchanged when the extension fails), and place the block. -/
def mm_malloc (h : Heap) (n : Nat) : Option Nat × Heap :=
  if n = 0 then (none, h)
  else
    let need := align_size n
    match findFit h.fl need with
    | some e => place h e.1 need
    | none =>
      match extend_heap h (max need CHUNKSIZE) with
      | none => (none, h)
      | some r => place r.2 r.1 need

/-- mm_free from src/mm.c: mark the block free in header and footer, insert
it into its class list (add_free bp size with the header size), and
coalesce with both neighbours.  A payload address that is not a block of
the heap is undefined behaviour in C (spec 7); the model leaves the heap
unchanged there. -/
def mm_free (h : Heap) (bp : Nat) : Heap :=
  match h.lookup bp with
  | none => h
  | some b =>
    let h1 : Heap :=
      { h with blocks := setAt (fun bb => Blk.mk bb.size false bb.data) h.blocks hBase bp }
    (coalesce { h1 with fl := add_free h1.fl bp b.size } bp).1

/-- Outcome of mm_realloc.  ok carries the returned pointer (none = NULL)
and the final heap.  nullCopy marks the undefined execution in which the
case-2 mm_malloc call fails and the source passes the NULL result straight
to memcpy (src/mm.c lines 233-234, no failure check).  corrupt marks the
undefined execution in which the source grows the heap while the right
neighbour is an ordinary free block that is not the last block before the
epilogue: the header write PUT(HDRP(bp), PACK(size + rem_size, 1)) at line
227 then spans past the absorbed neighbour into unrelated blocks and the
footer write lands inside another block, so the resulting memory is no
longer a sequence of boundary-tagged blocks and cannot be represented in
this model; the carried heap is the state after the extension and the
pop_free of the neighbour, the last representable point. -/
inductive RRes where
  | ok : Option Nat → Heap → RRes
  | nullCopy : Heap → RRes
  | corrupt : Heap → RRes

/-- Copy n payload bytes from the source byte function into the block at
dst (the memcpy of src/mm.c line 234). -/
def memcpyAt (h : Heap) (dst : Nat) (src : Nat → Nat) (n : Nat) : Heap :=
  { h with blocks :=
      (setAt (fun b => Blk.mk b.size b.alloc (fun i => if i < n then src i else b.data i))
        h.blocks hBase dst) }

/-- mm_realloc from src/mm.c.  size 0 returns NULL at once (line 204, no
release).  Case 0 (line 208): the current size already covers the rounded
request, same pointer, no mutation.  Case 1 (next block free or epilogue):
compute rem_size = current + next - request; when negative, extend the heap
by max(CHUNKSIZE, -rem_size) (NULL on failure, heap untouched); then pop
the next block and rewrite this block's tags over the combined bytes.  The
extension is contiguous with the absorbed neighbour exactly when the
neighbour is the epilogue or the last real block (the extension coalesces
with it); otherwise the tag rewrite of line 227 corrupts the heap, see
RRes.corrupt.  Case 2 (next block allocated): mm_malloc a new block, memcpy
GET_SIZE(HDRP(bp)) bytes, mm_free the old block; a NULL mm_malloc result is
passed to memcpy unchecked, see RRes.nullCopy. -/
def mm_realloc (h : Heap) (bp : Nat) (n : Nat) : RRes :=
  if n = 0 then .ok none h
  else
    let s := align_size n
    match h.lookup bp with
    | none => .ok none h
    | some b =>
      if s ≤ b.size then .ok (some bp) h
      else
        match h.lookup (bp + b.size) with
        | some nb =>
          if nb.alloc then
            match mm_malloc h s with
            | (none, h1) => .nullCopy h1
            | (some q, h1) =>
              let cur := (h1.lookup bp).getD b
              .ok (some q) (mm_free (memcpyAt h1 q cur.data cur.size) bp)
          else
            if s ≤ b.size + nb.size then
              .ok (some bp) (absorbHeap h bp (bp + b.size))
            else
              match extend_heap h (max CHUNKSIZE (s - b.size - nb.size)) with
              | none => .ok none h
              | some r =>
                if bp + b.size + nb.size = h.endBp then
                  .ok (some bp) (absorbHeap r.2 bp (bp + b.size))
                else
                  .corrupt { r.2 with fl := pop_free r.2.fl (bp + b.size) }
        | none =>
          match extend_heap h (max CHUNKSIZE (s - b.size)) with
          | none => .ok none h
          | some r =>
            .ok (some bp) (absorbHeap r.2 bp (bp + b.size))

/-- The returned pointer of an ok outcome. -/
def RRes.retOf : RRes → Option (Option Nat)
  | .ok r _ => some r
  | _ => none

/-- The heap of an ok outcome. -/
def RRes.heapOf : RRes → Option Heap
  | .ok _ h => some h
  | _ => none

/-- The heap carried by any outcome. -/
def RRes.stateOf : RRes → Heap
  | .ok _ h => h
  | .nullCopy h => h
  | .corrupt h => h

/-- True exactly on the corrupting execution. -/
def RRes.isCorrupt : RRes → Bool
  | .corrupt _ => true
  | _ => false

/-- True exactly on the NULL-memcpy execution. -/
def RRes.isNullCopy : RRes → Bool
  | .nullCopy _ => true
  | _ => false

/-- The empty placeholder heap (getD default for trace definitions). -/
def hEmpty : Heap := { blocks := [], fl := [], budget := 0 }

/-- Heap right after a successful mm_init with an ample growth budget:
one free block of INITSIZE = 144 bytes at payload address 160. -/
def hA0 : Heap := (mm_init 10000).getD hEmpty

/-- hA0 after mm_malloc 24 (block of 40 bytes at 160, split remainder free). -/
def hA1 : Heap := (mm_malloc hA0 24).2

/-- hA1 after a second mm_malloc 24 (block of 40 bytes at 200). -/
def hA2 : Heap := (mm_malloc hA1 24).2

/-- hA2 after a third mm_malloc 24 (whole 64-byte leftover at 240, no split). -/
def hA3 : Heap := (mm_malloc hA2 24).2

/-- hA3 after mm_free 200: blocks (40 allocated)@160, (40 free)@200,
(64 allocated)@240, with (200, 40) in its class list. -/
def hA4 : Heap := mm_free hA3 200

/-- Heap after mm_init with budget 304: the budget is fully consumed by the
directory/sentinel words (160) and the initial extension (144), so every
later growth request fails. -/
def hB0 : Heap := (mm_init 304).getD hEmpty

/-- hB0 after mm_malloc 24. -/
def hB1 : Heap := (mm_malloc hB0 24).2

/-- hB1 after mm_malloc 24: blocks (40 allocated)@160, (40 allocated)@200,
(64 free)@240; growth budget exhausted. -/
def hB2 : Heap := (mm_malloc hB1 24).2

/-- Heap after mm_init with budget 9000. -/
def hD0 : Heap := (mm_init 9000).getD hEmpty

/-- hD0 after mm_malloc 24. -/
def hD1 : Heap := (mm_malloc hD0 24).2

/-- hD1 after mm_malloc 24. -/
def hD2 : Heap := (mm_malloc hD1 24).2

/-- hD2 after mm_malloc 56 (triggers one heap extension of CHUNKSIZE). -/
def hD3 : Heap := (mm_malloc hD2 56).2

/-- hD3 after mm_free 200: blocks (40 allocated)@160, (40 free)@200,
(72 allocated)@240, (4104 free)@312. -/
def hD4 : Heap := mm_free hD3 200

/-- Free-list consistency: every entry of every class list names a block of
the heap that is free and whose header size equals the stored entry size. -/
def flValid (h : Heap) : Prop :=
  ∀ l ∈ h.fl, ∀ e ∈ l, h.tagAt e.1 = some (e.2, false)

/-- Free-list ordering: every class list is non-decreasing in stored size
(spec 8: within every size class, list entries are non-decreasing in size). -/
def flSorted (h : Heap) : Prop :=
  ∀ l ∈ h.fl, List.Pairwise (fun a b : FEntry => a.2 ≤ b.2) l

/-- Every block of the region has a positive size. -/
def posBlocks (h : Heap) : Prop := ∀ b ∈ h.blocks, 0 < b.size

/-- The heap invariant maintained between public calls. -/
def HeapInv (h : Heap) : Prop := flValid h ∧ flSorted h ∧ posBlocks h

/-- The second heap preserves every allocated block of the first, at the
same address with the same contents. -/
def AllocPres (h h2 : Heap) : Prop :=
  ∀ a c, h.lookup a = some c → c.alloc = true → h2.lookup a = some c

/-- Heaps reachable from a successful mm_init through valid public calls:
any mm_malloc, mm_free of an allocated block (anything else is undefined
behaviour by spec 7), and any mm_realloc whose argument is not a free
block and whose execution stays defined (result ok; the nullCopy and
corrupt outcomes are the undefined executions of src/mm.c). -/
inductive Reach : Heap → Prop where
  | start : ∀ (budget : Nat) (h : Heap), mm_init budget = some h → Reach h
  | step_malloc : ∀ (h : Heap) (n : Nat), Reach h → Reach (mm_malloc h n).2
  | step_free : ∀ (h : Heap) (bp : Nat) (b : Blk), Reach h → h.lookup bp = some b →
      b.alloc = true → Reach (mm_free h bp)
  | step_realloc : ∀ (h : Heap) (bp n : Nat) (r : Option Nat) (h2 : Heap), Reach h →
      (∀ c, h.lookup bp = some c → c.alloc = true) →
      mm_realloc h bp n = .ok r h2 → Reach h2

/-!
Theorems.
-/

/-- C1: the claim states that after any sequence of allocate/release/resize
calls from a successfully initialized heap no two adjacent blocks are both
free.  The code cannot maintain this invariant: on the run below (init,
three allocations, release of the middle one, resize of the first to a
larger size) mm_realloc finds the right neighbour of the resized block free
but too small, grows the heap at its far end (src/mm.c line 221), and then
rewrites the resized block's boundary tags over size + rem_size bytes
(line 227), a span that covers the absorbed neighbour, the following
allocated block and part of the far extension, while the footer write lands
inside an unrelated block.  The managed region is then no longer
partitioned into boundary-tagged blocks at all, so the coalescing
invariant is destroyed.  The run reaches the corrupting write. -/
theorem C1_invariant_destroyed_by_resize :
    hA4.tagAt 160 = some (40, true) ∧ hA4.tagAt 200 = some (40, false) ∧
      hA4.tagAt 240 = some (64, true) ∧
      (mm_realloc hA4 160 100).isCorrupt = true := by decide

/-- C2: the claim states that a failing underlying allocate propagates as
the resize's failure leaving the original block untouched and valid.  In
case 2 of mm_realloc (next block allocated) the source never checks the
mm_malloc result: on the run below the growth budget is exhausted, so
mm_malloc returns NULL, and line 234 passes that NULL straight to memcpy
(undefined behaviour; had the copy not crashed, line 235 would even free
the original block).  The concrete run reaches the NULL memcpy. -/
theorem C2_malloc_failure_reaches_null_memcpy :
    hB2.tagAt 160 = some (40, true) ∧ hB2.tagAt 200 = some (40, true) ∧
      hB2.budget = 0 ∧
      (mm_realloc hB2 160 60).isNullCopy = true := by decide

/-- C3 counterexample: resize with new size 0 is claimed to behave as an
alias for release (block marked free, inserted into its class list, null
returned).  On the concrete heap hA4 the call mm_realloc 160 0 returns
NULL but the block at 160 stays allocated and the free lists are
untouched, so the claim is false as stated. -/
theorem C3_counterexample_zero_size_does_not_release :
    (mm_realloc hA4 160 0).retOf = some none ∧
      (mm_realloc hA4 160 0).stateOf.tagAt 160 = some (40, true) ∧
      (mm_realloc hA4 160 0).stateOf.fl = hA4.fl := by decide

/-- C3 amended: mm_realloc with new size 0 returns NULL immediately
(src/mm.c line 204) and performs no operation at all: the heap is returned
unchanged and the block is not released. -/
theorem C3_zero_size_resize_is_noop :
    ∀ (h : Heap) (bp : Nat), mm_realloc h bp 0 = .ok none h :=
  fun _ _ => rfl

/-- C4: the claim states that resize calls grow only in the sentinel
(epilogue) case, and that an ordinary free right neighbour leads either to
an in-place absorb or to allocate+copy+release, never to grow.  The source
(line 217) enters the in-place path whenever the neighbour is free or the
epilogue and calls extend_heap (line 221) whenever the combined capacity is
insufficient, also for an ordinary free neighbour.  On the run below the
right neighbour of the resized block is an ordinary free block (40 bytes,
followed by an allocated block), the combined capacity is insufficient,
and mm_realloc grows the managed region by CHUNKSIZE bytes and then
reaches the corrupting tag write of line 227. -/
theorem C4_grow_called_with_ordinary_free_neighbor :
    hD4.tagAt 200 = some (40, false) ∧ hD4.tagAt 240 = some (72, true) ∧
      (mm_realloc hD4 160 200).isCorrupt = true ∧
      (mm_realloc hD4 160 200).stateOf.endBp = hD4.endBp + CHUNKSIZE := by decide

/-- C5: in the directory scan of mm_malloc a class head is taken only when
its stored size strictly exceeds the rounded request (first part), and a
head whose size equals the request exactly is not taken: the scan on a
directory whose first class is headed by such a block returns whatever the
scan of the remaining classes returns (second part). -/
theorem C5_scan_takes_head_only_on_strict_excess :
    (∀ (fl : FreeLists) (need : Nat) (e : FEntry), findFit fl need = some e → need < e.2) ∧
      (∀ (ls : FreeLists) (rest : List FEntry) (bp need : Nat),
        findFit (((bp, need) :: rest) :: ls) need = findFit ls need) := by
  constructor
  · intro fl need e h
    induction fl with
    | nil => simp [findFit] at h
    | cons l ls ih =>
      cases l with
      | nil => exact ih (by simpa [findFit] using h)
      | cons x xs =>
        by_cases hx : need < x.2
        · simp [findFit, hx] at h
          subst h
          exact hx
        · exact ih (by simpa [findFit, hx] using h)
  · intro ls rest bp need
    simp [findFit]

/-- Witness for C5 at concrete inputs: the scan over a directory headed by
an exact-size block falls through to the later classes, and a returned
head strictly exceeds the request. -/
theorem C5_scan_witness :
    (32 : Nat) < 40 ∧
      findFit [[(200, 32)], [(300, 40)]] 32 = findFit [[(300, 40)]] 32 :=
  ⟨C5_scan_takes_head_only_on_strict_excess.1 [[(300, 40)]] 32 (300, 40) rfl,
    C5_scan_takes_head_only_on_strict_excess.2 [[(300, 40)]] [] 200 32⟩

/-- C6: a resize whose rounded size is already covered by the block's
current capacity returns the same address and performs no heap mutation at
all (src/mm.c lines 207-209 return before any write). -/
theorem C6_shrink_resize_returns_same_address (h : Heap) (bp n : Nat) (b : Blk)
    (hn : 0 < n) (hb : h.lookup bp = some b) (_hal : b.alloc = true)
    (hsz : align_size n ≤ b.size) :
    mm_realloc h bp n = .ok (some bp) h := by
  unfold mm_realloc
  rw [if_neg (by omega), hb]
  simp [hsz]

/-- Witness for C6: shrinking the 40-byte allocated block at 160 of hA4 to
2 payload bytes returns the same address and the unchanged heap. -/
theorem C6_shrink_witness :
    mm_realloc hA4 160 2 = .ok (some 160) hA4 :=
  C6_shrink_resize_returns_same_address hA4 160 2 (Blk.mk 40 true (fun _ => 0))
    (by decide) rfl rfl (by decide)

/-- C8: when the scan yields no usable block and the heap extension by
max(rounded size, CHUNKSIZE) fails, mm_malloc returns NULL and the heap
state is returned unchanged (src/mm.c lines 161-165; extend_heap fails
before any mutation). -/
theorem C8_malloc_fails_unchanged_on_grow_failure (h : Heap) (n : Nat)
    (hn : 0 < n) (hscan : findFit h.fl (align_size n) = none)
    (hgrow : h.budget < ALIGN (max (align_size n) CHUNKSIZE)) :
    mm_malloc h n = (none, h) := by
  have hn0 : ¬ n = 0 := by omega
  simp only [mm_malloc, hn0, if_false, hscan]
  unfold extend_heap
  rw [if_pos hgrow]

/-- Witness for C8: on the budget-exhausted heap hB2 a request of 200
payload bytes finds no fit (the only free block holds 64 bytes) and the
growth fails, so mm_malloc returns NULL with the heap unchanged. -/
theorem C8_malloc_failure_witness :
    mm_malloc hB2 200 = (none, hB2) :=
  C8_malloc_fails_unchanged_on_grow_failure hB2 200 (by decide) (by decide) (by decide)

/-!
Walk lemmas for the block run and ordering lemmas for the free lists.
-/

theorem blkAt_ge {l : List Blk} {base a : Nat} {b : Blk} (h : blkAt l base a = some b) :
    base ≤ a := by
  induction l generalizing base with
  | nil => simp [blkAt] at h
  | cons x xs ih =>
    rw [blkAt] at h
    split at h
    · omega
    · have := ih h
      omega

theorem blkAt_mem {l : List Blk} {base a : Nat} {b : Blk} (h : blkAt l base a = some b) :
    b ∈ l := by
  induction l generalizing base with
  | nil => simp [blkAt] at h
  | cons x xs ih =>
    rw [blkAt] at h
    split at h
    · cases h; exact List.mem_cons_self _ _
    · exact List.mem_cons_of_mem _ (ih h)

theorem blkAt_end_le {l : List Blk} {base a : Nat} {b : Blk} (h : blkAt l base a = some b) :
    a + b.size ≤ base + sumSizes l := by
  induction l generalizing base with
  | nil => simp [blkAt] at h
  | cons x xs ih =>
    rw [blkAt] at h
    split at h
    · cases h
      simp [sumSizes]
      omega
    · have := ih h
      simp [sumSizes]
      omega

theorem blkAt_sep {l : List Blk} {base a a2 : Nat} {b b2 : Blk}
    (h : blkAt l base a = some b) (h2 : blkAt l base a2 = some b2) (hlt : a < a2) :
    a + b.size ≤ a2 := by
  induction l generalizing base with
  | nil => simp [blkAt] at h
  | cons x xs ih =>
    rw [blkAt] at h h2
    split at h
    · cases h
      split at h2
      · omega
      · have := blkAt_ge h2
        omega
    · split at h2
      · have := blkAt_ge h
        omega
      · exact ih h h2

theorem blkAt_none_end {l : List Blk} (base : Nat)
    (hpos : ∀ x ∈ l, 0 < x.size) :
    blkAt l base (base + sumSizes l) = none := by
  induction l generalizing base with
  | nil => simp [blkAt]
  | cons x xs ih =>
    rw [blkAt]
    have hx : 0 < x.size := hpos x (List.mem_cons_self _ _)
    have : ¬ (base + sumSizes (x :: xs) = base) := by
      simp [sumSizes]; omega
    rw [if_neg this]
    have h2 := ih (base + x.size) (fun y hy => hpos y (List.mem_cons_of_mem _ hy))
    rw [show base + sumSizes (x :: xs) = base + x.size + sumSizes xs from by
      simp [sumSizes]; omega]
    exact h2

theorem blkAt_append {l l2 : List Blk} {base a : Nat} {b : Blk}
    (h : blkAt l base a = some b) :
    blkAt (l ++ l2) base a = some b := by
  induction l generalizing base with
  | nil => simp [blkAt] at h
  | cons x xs ih =>
    rw [blkAt] at h
    rw [List.cons_append, blkAt]
    split at h
    · rw [if_pos (by assumption)]; exact h
    · rw [if_neg (by assumption)]; exact ih h

theorem blkAt_append_end {l : List Blk} {base : Nat} {nb : Blk}
    (hpos : ∀ x ∈ l, 0 < x.size) :
    blkAt (l ++ [nb]) base (base + sumSizes l) = some nb := by
  induction l generalizing base with
  | nil => simp [blkAt, sumSizes]
  | cons x xs ih =>
    rw [List.cons_append, blkAt]
    have hx : 0 < x.size := hpos x (List.mem_cons_self _ _)
    rw [if_neg (by simp [sumSizes]; omega)]
    have h2 := @ih (base + x.size) (fun y hy => hpos y (List.mem_cons_of_mem _ hy))
    rw [show base + sumSizes (x :: xs) = base + x.size + sumSizes xs by simp [sumSizes]; omega]
    exact h2

theorem sumSizes_append (l l2 : List Blk) :
    sumSizes (l ++ l2) = sumSizes l + sumSizes l2 := by
  induction l with
  | nil => simp [sumSizes]
  | cons x xs ih => simp [sumSizes, ih]; omega

theorem sumSizes_setAt {g : Blk → Blk} (hg : ∀ b, (g b).size = b.size)
    (l : List Blk) (base tgt : Nat) :
    sumSizes (setAt g l base tgt) = sumSizes l := by
  induction l generalizing base with
  | nil => rfl
  | cons x xs ih =>
    rw [setAt]
    split
    · simp [sumSizes, hg]
    · simp [sumSizes, ih]

theorem blkAt_setAt_self {g : Blk → Blk} {l : List Blk} {base tgt : Nat} {b : Blk}
    (h : blkAt l base tgt = some b) :
    blkAt (setAt g l base tgt) base tgt = some (g b) := by
  induction l generalizing base with
  | nil => simp [blkAt] at h
  | cons x xs ih =>
    rw [blkAt] at h
    rw [setAt]
    split at h
    · cases h
      rw [if_pos (by assumption), blkAt, if_pos (by assumption)]
    · rw [if_neg (by assumption), blkAt, if_neg (by assumption)]
      exact ih h

theorem blkAt_setAt_other {g : Blk → Blk} (hg : ∀ b, (g b).size = b.size)
    {l : List Blk} {base tgt a : Nat} {b : Blk}
    (h : blkAt l base a = some b) (hne : a ≠ tgt) :
    blkAt (setAt g l base tgt) base a = some b := by
  induction l generalizing base with
  | nil => simp [blkAt] at h
  | cons x xs ih =>
    rw [blkAt] at h
    rw [setAt]
    split
    · next heq =>
      subst heq
      rw [if_neg hne] at h
      rw [blkAt, if_neg hne, hg]
      exact h
    · split at h
      · rw [blkAt, if_pos (by assumption)]
        exact h
      · rw [blkAt, if_neg (by assumption)]
        exact ih h

theorem sumSizes_splitBlk {need : Nat} {l : List Blk} {base tgt : Nat} {b : Blk}
    (h : blkAt l base tgt = some b) (hle : need ≤ b.size) :
    sumSizes (splitBlk need l base tgt) = sumSizes l := by
  induction l generalizing base with
  | nil => simp [blkAt] at h
  | cons x xs ih =>
    rw [blkAt] at h
    rw [splitBlk]
    split at h
    · next heq =>
      cases h
      rw [if_pos heq]
      simp [sumSizes]
      omega
    · next heq =>
      rw [if_neg heq]
      simp [sumSizes, ih h]

theorem blkAt_splitBlk_self (need : Nat) {l : List Blk} {base tgt : Nat} {b : Blk}
    (h : blkAt l base tgt = some b) :
    blkAt (splitBlk need l base tgt) base tgt = some (Blk.mk need true b.data) := by
  induction l generalizing base with
  | nil => simp [blkAt] at h
  | cons x xs ih =>
    rw [blkAt] at h
    rw [splitBlk]
    split at h
    · cases h
      rw [if_pos (by assumption), blkAt, if_pos (by assumption)]
    · rw [if_neg (by assumption), blkAt, if_neg (by assumption)]
      exact ih h

theorem Blk_size_mk (s : Nat) (al : Bool) (d : Nat → Nat) : (Blk.mk s al d).size = s := rfl

theorem Blk_alloc_mk (s : Nat) (al : Bool) (d : Nat → Nat) : (Blk.mk s al d).alloc = al := rfl

theorem Blk_data_mk (s : Nat) (al : Bool) (d : Nat → Nat) : (Blk.mk s al d).data = d := rfl

theorem blkAt_splitBlk_rem (need : Nat) {l : List Blk} {base tgt : Nat} {b : Blk}
    (h : blkAt l base tgt = some b) (hpos : 0 < need) :
    blkAt (splitBlk need l base tgt) base (tgt + need) =
      some (Blk.mk (b.size - need) false (fun i => b.data (need + i))) := by
  induction l generalizing base with
  | nil => simp [blkAt] at h
  | cons x xs ih =>
    rw [blkAt] at h
    rw [splitBlk]
    by_cases heq : tgt = base
    · rw [if_pos heq] at h ⊢
      cases h
      simp only [blkAt]
      rw [if_neg (by omega), if_pos (by omega)]
    · rw [if_neg heq] at h ⊢
      have hge := blkAt_ge h
      rw [blkAt, if_neg (by omega)]
      exact ih h

theorem blkAt_splitBlk_other {need : Nat} {l : List Blk} {base tgt a : Nat} {b c : Blk}
    (h : blkAt l base tgt = some b) (hlt : need < b.size)
    (h2 : blkAt l base a = some c) (hne : a ≠ tgt) :
    blkAt (splitBlk need l base tgt) base a = some c := by
  induction l generalizing base with
  | nil => simp [blkAt] at h
  | cons x xs ih =>
    rw [blkAt] at h h2
    rw [splitBlk]
    by_cases heq : tgt = base
    · rw [if_pos heq] at h ⊢
      cases h
      rw [if_neg (by omega)] at h2
      have hge := blkAt_ge h2
      simp only [blkAt]
      rw [if_neg (by omega), if_neg (by omega),
        show base + need + (b.size - need) = base + b.size from by omega]
      exact h2
    · rw [if_neg heq] at h ⊢
      split at h2
      · rw [blkAt, if_pos (by assumption)]
        exact h2
      · rw [blkAt, if_neg (by assumption)]
        exact ih h h2

theorem sumSizes_merge2At (al : Bool) (l : List Blk) (base tgt : Nat) :
    sumSizes (merge2At al l base tgt) = sumSizes l := by
  induction l generalizing base with
  | nil => rfl
  | cons x xs ih =>
    cases xs with
    | nil => rfl
    | cons y ys =>
      rw [merge2At]
      split
      · simp [sumSizes]
        omega
      · rw [sumSizes, sumSizes, ih]

theorem blkAt_next {l : List Blk} {base a : Nat} {b : Blk}
    (h : blkAt l base a = some b) :
    (∃ b2, blkAt l base (a + b.size) = some b2) ∨ a + b.size = base + sumSizes l := by
  induction l generalizing base with
  | nil => simp [blkAt] at h
  | cons x xs ih =>
    rw [blkAt] at h
    split at h
    · next heq =>
      cases h
      subst heq
      cases xs with
      | nil =>
        right
        simp [sumSizes, blkAt]
      | cons y ys =>
        left
        by_cases hz : b.size = 0
        · exact ⟨b, by rw [blkAt, if_pos (by omega)]⟩
        · exact ⟨y, by rw [blkAt, if_neg (by omega), blkAt, if_pos rfl]⟩
    · next heq =>
      rcases ih h with h2 | h2
      · left
        rcases h2 with ⟨b2, hb2⟩
        refine ⟨b2, ?_⟩
        rw [blkAt, if_neg (by have := blkAt_ge h; omega)]
        exact hb2
      · right
        rw [sumSizes]
        omega

theorem blkAt_merge2At_self (al : Bool) {l : List Blk} {base tgt : Nat} {b b2 : Blk}
    (h : blkAt l base tgt = some b) (h2 : blkAt l base (tgt + b.size) = some b2)
    (hpos : 0 < b.size) :
    blkAt (merge2At al l base tgt) base tgt =
      some (Blk.mk (b.size + b2.size) al
        (fun i => if i < b.size then b.data i else b2.data (i - b.size))) := by
  induction l generalizing base with
  | nil => simp [blkAt] at h
  | cons x xs ih =>
    rw [blkAt] at h h2
    by_cases heq : tgt = base
    · rw [if_pos heq] at h
      cases h
      rw [if_neg (by omega)] at h2
      cases xs with
      | nil => simp [blkAt] at h2
      | cons y ys =>
        rw [blkAt] at h2
        rw [if_pos (by omega)] at h2
        cases h2
        rw [merge2At, if_pos heq, blkAt, if_pos heq]
    · rw [if_neg heq] at h
      rw [if_neg (by have := blkAt_ge h; omega)] at h2
      cases xs with
      | nil => simp [blkAt] at h
      | cons y ys =>
        rw [merge2At, if_neg heq, blkAt, if_neg heq]
        exact ih h h2

theorem blkAt_merge2At_other {al : Bool} {l : List Blk} {base tgt a : Nat} {b c : Blk}
    (h : blkAt l base tgt = some b)
    (h3 : blkAt l base a = some c) (hne1 : a ≠ tgt) (hne2 : a ≠ tgt + b.size) :
    blkAt (merge2At al l base tgt) base a = some c := by
  induction l generalizing base with
  | nil => simp [blkAt] at h
  | cons x xs ih =>
    rw [blkAt] at h h3
    by_cases heq : tgt = base
    · rw [if_pos heq] at h
      cases h
      rw [if_neg (by omega)] at h3
      cases xs with
      | nil => simp [blkAt] at h3
      | cons y ys =>
        rw [blkAt] at h3
        rw [if_neg (by omega)] at h3
        rw [merge2At, if_pos heq]
        simp only [blkAt]
        rw [if_neg (by omega),
          show base + (b.size + y.size) = base + b.size + y.size from by omega]
        exact h3
    · rw [if_neg heq] at h
      cases xs with
      | nil => simp [blkAt] at h
      | cons y ys =>
        rw [merge2At, if_neg heq]
        split at h3
        · rw [blkAt, if_pos (by assumption)]
          exact h3
        · rw [blkAt, if_neg (by assumption)]
          exact ih h h3

theorem blkLeft_spec {l : List Blk} {base a p : Nat} {b : Blk}
    (hpos : ∀ x ∈ l, 0 < x.size)
    (h : blkLeft l base a = some (p, b)) :
    blkAt l base p = some b ∧ p + b.size = a := by
  induction l generalizing base with
  | nil => simp [blkLeft] at h
  | cons x xs ih =>
    rw [blkLeft] at h
    split at h
    · cases h
      exact ⟨by rw [blkAt, if_pos rfl], by assumption⟩
    · rcases ih (fun y hy => hpos y (List.mem_cons_of_mem _ hy)) h with ⟨h1, h2⟩
      refine ⟨?_, h2⟩
      have hx : 0 < x.size := hpos x (List.mem_cons_self _ _)
      rw [blkAt, if_neg (by have := blkAt_ge h1; omega)]
      exact h1

theorem blkLeft_of_blkAt {l : List Blk} {base p : Nat} {b : Blk}
    (hpos : ∀ x ∈ l, 0 < x.size)
    (h : blkAt l base p = some b) :
    blkLeft l base (p + b.size) = some (p, b) := by
  induction l generalizing base with
  | nil => simp [blkAt] at h
  | cons x xs ih =>
    rw [blkAt] at h
    rw [blkLeft]
    split at h
    · next heq =>
      cases h
      rw [if_pos (by omega)]
      rw [heq]
    · next heq =>
      have hge := blkAt_ge h
      have hbpos : 0 < b.size := hpos b (List.mem_cons_of_mem _ (blkAt_mem h))
      rw [if_neg (by omega)]
      exact ih (fun y hy => hpos y (List.mem_cons_of_mem _ hy)) h

theorem mem_setAt {g : Blk → Blk} {l : List Blk} {base tgt : Nat} {x : Blk}
    (h : x ∈ setAt g l base tgt) :
    x ∈ l ∨ ∃ y ∈ l, x = g y := by
  induction l generalizing base with
  | nil => simp [setAt] at h
  | cons z zs ih =>
    rw [setAt] at h
    split at h
    · rcases List.mem_cons.1 h with h1 | h1
      · exact Or.inr ⟨z, List.mem_cons_self _ _, h1⟩
      · exact Or.inl (List.mem_cons_of_mem _ h1)
    · rcases List.mem_cons.1 h with h1 | h1
      · exact Or.inl (h1 ▸ List.mem_cons_self _ _)
      · rcases ih h1 with h2 | ⟨y, hy, hxy⟩
        · exact Or.inl (List.mem_cons_of_mem _ h2)
        · exact Or.inr ⟨y, List.mem_cons_of_mem _ hy, hxy⟩

theorem mem_splitBlk {need : Nat} {l : List Blk} {base tgt : Nat} {x : Blk}
    (h : x ∈ splitBlk need l base tgt) :
    x ∈ l ∨ x.size = need ∨ ∃ y ∈ l, x.size = y.size - need := by
  induction l generalizing base with
  | nil => simp [splitBlk] at h
  | cons z zs ih =>
    rw [splitBlk] at h
    split at h
    · rcases List.mem_cons.1 h with h1 | h1
      · exact Or.inr (Or.inl (by rw [h1]))
      · rcases List.mem_cons.1 h1 with h2 | h2
        · exact Or.inr (Or.inr ⟨z, List.mem_cons_self _ _, by rw [h2]⟩)
        · exact Or.inl (List.mem_cons_of_mem _ h2)
    · rcases List.mem_cons.1 h with h1 | h1
      · exact Or.inl (h1 ▸ List.mem_cons_self _ _)
      · rcases ih h1 with h2 | h2 | ⟨y, hy, hxy⟩
        · exact Or.inl (List.mem_cons_of_mem _ h2)
        · exact Or.inr (Or.inl h2)
        · exact Or.inr (Or.inr ⟨y, List.mem_cons_of_mem _ hy, hxy⟩)

theorem mem_merge2At {al : Bool} {l : List Blk} {base tgt : Nat} {x : Blk}
    (h : x ∈ merge2At al l base tgt) :
    x ∈ l ∨ ∃ y ∈ l, ∃ z ∈ l, x.size = y.size + z.size := by
  induction l generalizing base with
  | nil => simp [merge2At] at h
  | cons z zs ih =>
    cases zs with
    | nil => exact Or.inl h
    | cons w ws =>
      rw [merge2At] at h
      split at h
      · rcases List.mem_cons.1 h with h1 | h1
        · exact Or.inr ⟨z, List.mem_cons_self _ _, w,
            List.mem_cons_of_mem _ (List.mem_cons_self _ _), by rw [h1]⟩
        · exact Or.inl (List.mem_cons_of_mem _ (List.mem_cons_of_mem _ h1))
      · rcases List.mem_cons.1 h with h1 | h1
        · exact Or.inl (h1 ▸ List.mem_cons_self _ _)
        · rcases ih h1 with h2 | ⟨y, hy, z2, hz2, hxy⟩
          · exact Or.inl (List.mem_cons_of_mem _ h2)
          · exact Or.inr ⟨y, List.mem_cons_of_mem _ hy, z2, List.mem_cons_of_mem _ hz2, hxy⟩

theorem mem_insEntry {e x : FEntry} {l : List FEntry} :
    x ∈ insEntry e l ↔ x = e ∨ x ∈ l := by
  induction l with
  | nil => simp [insEntry]
  | cons z zs ih =>
    rw [insEntry]
    split
    · simp [List.mem_cons]
    · simp only [List.mem_cons, ih]
      tauto

theorem pairwise_insEntry {e : FEntry} {l : List FEntry}
    (h : List.Pairwise (fun a b : FEntry => a.2 ≤ b.2) l) :
    List.Pairwise (fun a b : FEntry => a.2 ≤ b.2) (insEntry e l) := by
  induction l with
  | nil => simp [insEntry]
  | cons z zs ih =>
    rw [insEntry]
    rcases List.pairwise_cons.1 h with ⟨hz, hzs⟩
    split
    · next hle =>
      refine List.pairwise_cons.2 ⟨?_, h⟩
      intro y hy
      rcases List.mem_cons.1 hy with h1 | h1
      · subst h1
        omega
      · have := hz y h1
        omega
    · next hle =>
      refine List.pairwise_cons.2 ⟨?_, ih hzs⟩
      intro y hy
      rcases mem_insEntry.1 hy with h1 | h1
      · subst h1
        omega
      · exact hz y h1

theorem insEntry_takeWhile_dropWhile (e : FEntry) (l : List FEntry) :
    insEntry e l =
      l.takeWhile (fun x => x.2 < e.2) ++ e :: l.dropWhile (fun x => x.2 < e.2) := by
  induction l with
  | nil => simp [insEntry]
  | cons z zs ih =>
    rw [insEntry]
    split
    · next hle =>
      have hzlt : ¬ z.2 < e.2 := by omega
      rw [List.takeWhile_cons, List.dropWhile_cons]
      simp [hzlt]
    · next hle =>
      have hzlt : z.2 < e.2 := by omega
      rw [List.takeWhile_cons, List.dropWhile_cons]
      simp [hzlt, ih]

theorem mem_modNth {f : List FEntry → List FEntry} {n : Nat}
    {fl : List (List FEntry)} {l : List FEntry}
    (h : l ∈ modNth f n fl) :
    l ∈ fl ∨ ∃ l0 ∈ fl, l = f l0 := by
  induction fl generalizing n with
  | nil => simp [modNth] at h
  | cons z zs ih =>
    cases n with
    | zero =>
      rw [modNth] at h
      rcases List.mem_cons.1 h with h1 | h1
      · exact Or.inr ⟨z, List.mem_cons_self _ _, h1⟩
      · exact Or.inl (List.mem_cons_of_mem _ h1)
    | succ m =>
      rw [modNth] at h
      rcases List.mem_cons.1 h with h1 | h1
      · exact Or.inl (h1 ▸ List.mem_cons_self _ _)
      · rcases ih h1 with h2 | ⟨l0, hl0, hfl⟩
        · exact Or.inl (List.mem_cons_of_mem _ h2)
        · exact Or.inr ⟨l0, List.mem_cons_of_mem _ hl0, hfl⟩

theorem align_size_min (n : Nat) : 2 * DSIZE ≤ align_size n := Nat.le_max_right _ _

theorem tagAt_some {h : Heap} {a sz : Nat} {al : Bool} :
    h.tagAt a = some (sz, al) ↔ ∃ c, h.lookup a = some c ∧ c.size = sz ∧ c.alloc = al := by
  simp only [Heap.tagAt, Option.map_eq_some']
  constructor
  · rintro ⟨c, hc, hca⟩
    exact ⟨c, hc, by cases hca; exact ⟨rfl, rfl⟩⟩
  · rintro ⟨c, hc, h1, h2⟩
    exact ⟨c, hc, by rw [h1, h2]⟩

theorem findFit_mem {fl : FreeLists} {need : Nat} {e : FEntry}
    (h : findFit fl need = some e) : ∃ l ∈ fl, e ∈ l := by
  induction fl with
  | nil => simp [findFit] at h
  | cons l ls ih =>
    cases l with
    | nil =>
      rcases ih (by simpa [findFit] using h) with ⟨l0, hl0, he⟩
      exact ⟨l0, List.mem_cons_of_mem _ hl0, he⟩
    | cons x xs =>
      rw [findFit] at h
      split at h
      · cases h
        exact ⟨e :: xs, List.mem_cons_self _ _, List.mem_cons_self _ _⟩
      · rcases ih h with ⟨l0, hl0, he⟩
        exact ⟨l0, List.mem_cons_of_mem _ hl0, he⟩

theorem mem_pop_free {fl : FreeLists} {bp : Nat} {l2 : List FEntry}
    (h : l2 ∈ pop_free fl bp) :
    ∃ l0 ∈ fl, List.Sublist l2 l0 ∧ ∀ e ∈ l2, e.1 ≠ bp := by
  rcases List.mem_map.1 h with ⟨l0, hl0, rfl⟩
  refine ⟨l0, hl0, List.filter_sublist _, fun e he => ?_⟩
  have := List.of_mem_filter he
  simpa using this

theorem mem_add_free {fl : FreeLists} {bp sz : Nat} {l2 : List FEntry}
    (h : l2 ∈ add_free fl bp sz) :
    l2 ∈ fl ∨ ∃ l0 ∈ fl, l2 = insEntry (bp, sz) l0 :=
  mem_modNth h

/-- One merge step of the coalescing engine preserves the heap invariant,
keeps every allocated block, the total size and the budget, and leaves the
combined free block at the merged address. -/
theorem merge_step_inv {h : Heap} {p : Nat} {x y : Blk}
    (hInv : HeapInv h) (hx : h.lookup p = some x) (hxf : x.alloc = false)
    (hy : h.lookup (p + x.size) = some y) (hyf : y.alloc = false) :
    HeapInv (mergeHeap h p x.size y.size) ∧
    (mergeHeap h p x.size y.size).lookup p = some (mergedBlk false x y) ∧
    AllocPres h (mergeHeap h p x.size y.size) ∧
    sumSizes (mergeHeap h p x.size y.size).blocks = sumSizes h.blocks ∧
    (mergeHeap h p x.size y.size).budget = h.budget := by
  obtain ⟨hV, hS, hP⟩ := hInv
  have hxpos : 0 < x.size := hP x (blkAt_mem hx)
  have hypos : 0 < y.size := hP y (blkAt_mem hy)
  have hmerge := blkAt_merge2At_self false hx hy hxpos
  have hother : ∀ a c, blkAt h.blocks hBase a = some c → a ≠ p → a ≠ p + x.size →
      blkAt (merge2At false h.blocks hBase p) hBase a = some c :=
    fun a c hc h1 h2 => blkAt_merge2At_other hx hc h1 h2
  refine ⟨⟨?_, ?_, ?_⟩, hmerge, ?_, sumSizes_merge2At _ _ _ _, rfl⟩
  · -- flValid
    intro l2 hl2 e he
    have core : ∀ l3, l3 ∈ pop_free (pop_free h.fl (p + x.size)) p → e ∈ l3 →
        Heap.tagAt (mergeHeap h p x.size y.size) e.1 = some (e.2, false) := by
      intro l3 hl3 hel3
      rcases mem_pop_free hl3 with ⟨l4, hl4, hsub4, hne4⟩
      rcases mem_pop_free hl4 with ⟨l5, hl5, hsub5, hne5⟩
      have he5 : e ∈ l5 := hsub5.mem (hsub4.mem hel3)
      have hval := hV l5 hl5 e he5
      rcases tagAt_some.1 hval with ⟨c, hc, hcs, hca⟩
      refine tagAt_some.2 ⟨c, ?_, hcs, hca⟩
      show blkAt (merge2At false h.blocks hBase p) hBase e.1 = some c
      exact hother e.1 c hc (hne4 e hel3) (hne5 e (hsub4.mem hel3))
    rcases mem_add_free hl2 with hl2a | ⟨l0, hl0, rfl⟩
    · exact core l2 hl2a he
    · rcases mem_insEntry.1 he with rfl | hel0
      · exact tagAt_some.2 ⟨mergedBlk false x y, hmerge, rfl, rfl⟩
      · exact core l0 hl0 hel0
  · -- flSorted
    intro l2 hl2
    rcases mem_add_free hl2 with hl2a | ⟨l0, hl0, rfl⟩
    · rcases mem_pop_free hl2a with ⟨l4, hl4, hsub4, _⟩
      rcases mem_pop_free hl4 with ⟨l5, hl5, hsub5, _⟩
      exact List.Pairwise.sublist (hsub4.trans hsub5) (hS l5 hl5)
    · rcases mem_pop_free hl0 with ⟨l4, hl4, hsub4, _⟩
      rcases mem_pop_free hl4 with ⟨l5, hl5, hsub5, _⟩
      exact pairwise_insEntry (List.Pairwise.sublist (hsub4.trans hsub5) (hS l5 hl5))
  · -- posBlocks
    intro bb hbb
    rcases mem_merge2At hbb with hbb1 | ⟨u, hu, v, hv, hsz⟩
    · exact hP bb hbb1
    · have := hP u hu
      omega
  · -- AllocPres
    intro a c hc hca
    have hne1 : a ≠ p := by
      intro hpe
      rw [hpe, hx] at hc
      cases hc
      rw [hxf] at hca
      cases hca
    have hne2 : a ≠ p + x.size := by
      intro hpe
      rw [hpe, hy] at hc
      cases hc
      rw [hyf] at hca
      cases hca
    exact hother a c hc hne1 hne2

/-- The left-merge half of coalescing preserves the invariant, the
allocated blocks, the total size and the budget, and returns the address
of a free block. -/
theorem coalesceL_spec {h1 : Heap} {bp : Nat} {b1 : Blk}
    (hInv : HeapInv h1) (hb1 : h1.lookup bp = some b1) (hf : b1.alloc = false) :
    HeapInv (coalesceL h1 bp).1 ∧
    (∃ b2, (coalesceL h1 bp).1.lookup (coalesceL h1 bp).2 = some b2 ∧ b2.alloc = false) ∧
    AllocPres h1 (coalesceL h1 bp).1 ∧
    sumSizes (coalesceL h1 bp).1.blocks = sumSizes h1.blocks ∧
    (coalesceL h1 bp).1.budget = h1.budget := by
  unfold coalesceL
  split
  · next heq => rw [hb1] at heq; cases heq
  · next b1x heq =>
    rw [hb1] at heq
    cases heq
    split
    · next lv hlv =>
      split
      · exact ⟨hInv, ⟨b1, hb1, hf⟩, fun a c hc _ => hc, rfl, rfl⟩
      · next hlvf =>
        have hlvf2 : lv.2.alloc = false := by
          cases hal : lv.2.alloc
          · rfl
          · exact absurd hal hlvf
        rcases blkLeft_spec hInv.2.2 hlv with ⟨hlb, hsum⟩
        have hbx : h1.lookup (lv.1 + lv.2.size) = some b1 := by rw [hsum]; exact hb1
        rcases merge_step_inv hInv hlb hlvf2 hbx hf with ⟨hI, hlook, hAP, hsum2, hbud⟩
        exact ⟨hI, ⟨mergedBlk false lv.2 b1, hlook, rfl⟩, hAP, hsum2, hbud⟩
    · next hlv =>
      exact ⟨hInv, ⟨b1, hb1, hf⟩, fun a c hc _ => hc, rfl, rfl⟩

/-- Full coalescing (right merge, then left merge) preserves the invariant,
the allocated blocks, the total size and the budget, and returns the
address of a free block. -/
theorem coalesce_spec {h : Heap} {bp : Nat} {b : Blk}
    (hInv : HeapInv h) (hb : h.lookup bp = some b) (hf : b.alloc = false) :
    HeapInv (coalesce h bp).1 ∧
    (∃ b2, (coalesce h bp).1.lookup (coalesce h bp).2 = some b2 ∧ b2.alloc = false) ∧
    AllocPres h (coalesce h bp).1 ∧
    sumSizes (coalesce h bp).1.blocks = sumSizes h.blocks ∧
    (coalesce h bp).1.budget = h.budget := by
  unfold coalesce
  split
  · next heq => rw [hb] at heq; cases heq
  · next bx heq =>
    rw [hb] at heq
    cases heq
    split
    · next nb hnb =>
      split
      · exact coalesceL_spec hInv hb hf
      · next hnbal =>
        have hnbf : nb.alloc = false := by
          cases hal : nb.alloc
          · rfl
          · exact absurd hal hnbal
        rcases merge_step_inv hInv hb hf hnb hnbf with ⟨hI, hlook, hAP, hsum2, hbud⟩
        rcases coalesceL_spec hI hlook (by rfl) with ⟨hI2, hfree2, hAP2, hsum3, hbud2⟩
        refine ⟨hI2, hfree2, ?_, by rw [hsum3, hsum2], by rw [hbud2, hbud]⟩
        intro a c hc hca
        exact hAP2 a c (hAP a c hc hca) hca
    · next hnb =>
      exact coalesceL_spec hInv hb hf

theorem mem_splitBlk_of {need : Nat} {l : List Blk} {base tgt : Nat} {b : Blk}
    (h : blkAt l base tgt = some b) :
    ∀ x ∈ splitBlk need l base tgt, x ∈ l ∨ x.size = need ∨ x.size = b.size - need := by
  induction l generalizing base with
  | nil => simp [blkAt] at h
  | cons z zs ih =>
    rw [blkAt] at h
    intro x hx
    rw [splitBlk] at hx
    split at h
    · cases h
      rw [if_pos (by assumption)] at hx
      rcases List.mem_cons.1 hx with h1 | h1
      · exact Or.inr (Or.inl (by rw [h1]))
      · rcases List.mem_cons.1 h1 with h2 | h2
        · exact Or.inr (Or.inr (by rw [h2]))
        · exact Or.inl (List.mem_cons_of_mem _ h2)
    · rw [if_neg (by assumption)] at hx
      rcases List.mem_cons.1 hx with h1 | h1
      · exact Or.inl (h1 ▸ List.mem_cons_self _ _)
      · rcases ih h x h1 with h2 | h2
        · exact Or.inl (List.mem_cons_of_mem _ h2)
        · exact Or.inr h2

/-- Placement preserves the heap invariant, the other allocated blocks, the
total size and the budget, and leaves an allocated block at the chosen
address (spec 4.4 steps 5-6). -/
theorem place_spec {h : Heap} {bp need : Nat} {b : Blk}
    (hInv : HeapInv h) (hb : h.lookup bp = some b) (hf : b.alloc = false)
    (hneed : 2 * DSIZE ≤ need) :
    HeapInv (place h bp need).2 ∧
    (place h bp need).1 = some bp ∧
    (∃ b2, (place h bp need).2.lookup bp = some b2 ∧ b2.alloc = true) ∧
    AllocPres h (place h bp need).2 ∧
    sumSizes (place h bp need).2.blocks = sumSizes h.blocks ∧
    (place h bp need).2.budget = h.budget := by
  obtain ⟨hV, hS, hP⟩ := hInv
  have hDpos : 0 < 2 * DSIZE := by norm_num [DSIZE, WSIZE]
  unfold place
  split
  · next heq => rw [hb] at heq; cases heq
  · next bx heq =>
    rw [hb] at heq
    cases heq
    have hentry_ne : ∀ l2 ∈ pop_free h.fl bp, ∀ e ∈ l2,
        h.tagAt e.1 = some (e.2, false) ∧ e.1 ≠ bp := by
      intro l2 hl2 e he
      rcases mem_pop_free hl2 with ⟨l0, hl0, hsub, hne⟩
      exact ⟨hV l0 hl0 e (hsub.mem he), hne e he⟩
    have hsort_pop : ∀ l2 ∈ pop_free h.fl bp,
        List.Pairwise (fun a b : FEntry => a.2 ≤ b.2) l2 := by
      intro l2 hl2
      rcases mem_pop_free hl2 with ⟨l0, hl0, hsub, _⟩
      exact List.Pairwise.sublist hsub (hS l0 hl0)
    split
    · next hsplit =>
      have hlt : need < b.size := by omega
      have hfront := blkAt_splitBlk_self need hb
      have hrem := blkAt_splitBlk_rem need hb (by omega)
      refine ⟨⟨?_, ?_, ?_⟩, rfl, ⟨Blk.mk need true b.data, hfront, rfl⟩, ?_,
        sumSizes_splitBlk hb (by omega), rfl⟩
      · -- flValid
        intro l2 hl2 e he
        rcases mem_add_free hl2 with hl2a | ⟨l0, hl0, rfl⟩
        · rcases hentry_ne l2 hl2a e he with ⟨hval, hne⟩
          rcases tagAt_some.1 hval with ⟨c, hc, hcs, hca⟩
          exact tagAt_some.2 ⟨c, blkAt_splitBlk_other hb hlt hc hne, hcs, hca⟩
        · rcases mem_insEntry.1 he with rfl | hel0
          · exact tagAt_some.2 ⟨_, hrem, rfl, rfl⟩
          · rcases hentry_ne l0 hl0 e hel0 with ⟨hval, hne⟩
            rcases tagAt_some.1 hval with ⟨c, hc, hcs, hca⟩
            exact tagAt_some.2 ⟨c, blkAt_splitBlk_other hb hlt hc hne, hcs, hca⟩
      · -- flSorted
        intro l2 hl2
        rcases mem_add_free hl2 with hl2a | ⟨l0, hl0, rfl⟩
        · exact hsort_pop l2 hl2a
        · exact pairwise_insEntry (hsort_pop l0 hl0)
      · -- posBlocks
        intro x hx
        rcases mem_splitBlk_of hb x hx with h1 | h1 | h1
        · exact hP x h1
        · omega
        · omega
      · -- AllocPres
        intro a c hc hca
        have hne : a ≠ bp := by
          intro hpe
          rw [hpe, hb] at hc
          cases hc
          rw [hf] at hca
          cases hca
        exact blkAt_splitBlk_other hb hlt hc hne
    · next hsplit =>
      have hmark := blkAt_setAt_self (g := fun bb => Blk.mk bb.size true bb.data) hb
      have hg : ∀ bb : Blk, (Blk.mk bb.size true bb.data).size = bb.size := fun _ => rfl
      refine ⟨⟨?_, ?_, ?_⟩, rfl, ⟨Blk.mk b.size true b.data, hmark, rfl⟩, ?_,
        sumSizes_setAt hg _ _ _, rfl⟩
      · -- flValid
        intro l2 hl2 e he
        rcases hentry_ne l2 hl2 e he with ⟨hval, hne⟩
        rcases tagAt_some.1 hval with ⟨c, hc, hcs, hca⟩
        exact tagAt_some.2 ⟨c, blkAt_setAt_other hg hc hne, hcs, hca⟩
      · -- flSorted
        exact hsort_pop
      · -- posBlocks
        intro x hx
        rcases mem_setAt hx with h1 | ⟨y, hy, rfl⟩
        · exact hP x h1
        · exact hP y hy
      · -- AllocPres
        intro a c hc hca
        have hne : a ≠ bp := by
          intro hpe
          rw [hpe, hb] at hc
          cases hc
          rw [hf] at hca
          cases hca
        exact blkAt_setAt_other hg hc hne

theorem ALIGN_ge (x : Nat) : x ≤ ALIGN x := by
  unfold ALIGN WSIZE
  omega

/-- Heap extension preserves the invariant and all allocated blocks, grows
the total size by the aligned byte count, and returns the address of a
free block; the returned address was not an allocated block before. -/
theorem extend_spec {h : Heap} {bytes bp2 : Nat} {h2 : Heap}
    (hInv : HeapInv h) (hpos : 0 < bytes)
    (hx : extend_heap h bytes = some (bp2, h2)) :
    HeapInv h2 ∧ (∃ b2, h2.lookup bp2 = some b2 ∧ b2.alloc = false) ∧
    AllocPres h h2 ∧ sumSizes h2.blocks = sumSizes h.blocks + ALIGN bytes ∧
    (∀ c, h.lookup bp2 = some c → c.alloc = false) := by
  obtain ⟨hV, hS, hP⟩ := hInv
  have hapos : 0 < ALIGN bytes := lt_of_lt_of_le hpos (ALIGN_ge bytes)
  simp only [extend_heap] at hx
  split at hx
  · cases hx
  · next hbud =>
    cases hx
    have hlook1 : Heap.lookup
        { blocks := h.blocks ++ [Blk.mk (ALIGN bytes) false (fun _ => 0)],
          fl := add_free h.fl h.endBp (ALIGN bytes),
          budget := h.budget - ALIGN bytes } h.endBp =
        some (Blk.mk (ALIGN bytes) false (fun _ => 0)) := by
      show blkAt (h.blocks ++ [Blk.mk (ALIGN bytes) false (fun _ => 0)]) hBase
          (hBase + sumSizes h.blocks) = _
      exact blkAt_append_end hP
    have hInv1 : HeapInv
        { blocks := h.blocks ++ [Blk.mk (ALIGN bytes) false (fun _ => 0)],
          fl := add_free h.fl h.endBp (ALIGN bytes),
          budget := h.budget - ALIGN bytes } := by
      refine ⟨?_, ?_, ?_⟩
      · intro l2 hl2 e he
        rcases mem_add_free hl2 with hl2a | ⟨l0, hl0, rfl⟩
        · rcases tagAt_some.1 (hV l2 hl2a e he) with ⟨c, hc, hcs, hca⟩
          exact tagAt_some.2 ⟨c, blkAt_append hc, hcs, hca⟩
        · rcases mem_insEntry.1 he with rfl | hel0
          · exact tagAt_some.2 ⟨_, hlook1, rfl, rfl⟩
          · rcases tagAt_some.1 (hV l0 hl0 e hel0) with ⟨c, hc, hcs, hca⟩
            exact tagAt_some.2 ⟨c, blkAt_append hc, hcs, hca⟩
      · intro l2 hl2
        rcases mem_add_free hl2 with hl2a | ⟨l0, hl0, rfl⟩
        · exact hS l2 hl2a
        · exact pairwise_insEntry (hS l0 hl0)
      · intro x hx2
        rcases List.mem_append.1 hx2 with h1 | h1
        · exact hP x h1
        · rw [List.mem_singleton.1 h1]
          exact hapos
    rcases coalesce_spec hInv1 hlook1 rfl with ⟨hI2, hfree2, hAP2, hsum2, hbud2⟩
    have hAP : AllocPres h
        { blocks := h.blocks ++ [Blk.mk (ALIGN bytes) false (fun _ => 0)],
          fl := add_free h.fl h.endBp (ALIGN bytes),
          budget := h.budget - ALIGN bytes } := by
      intro a c hc _
      exact blkAt_append hc
    refine ⟨hI2, hfree2, ?_, ?_, ?_⟩
    · intro a c hc hca
      exact hAP2 a c (hAP a c hc hca) hca
    · rw [hsum2]
      show sumSizes (h.blocks ++ [Blk.mk (ALIGN bytes) false (fun _ => 0)]) = _
      rw [sumSizes_append]
      rfl
    · intro c hc
      cases hal : c.alloc
      · rfl
      · exfalso
        have h1 := hAP2 _ c (hAP _ c hc hal) hal
        rcases hfree2 with ⟨b2, hb2, hb2f⟩
        rw [h1] at hb2
        cases hb2
        rw [hal] at hb2f
        cases hb2f

theorem mm_free_none {h : Heap} {bp : Nat} (hb : h.lookup bp = none) :
    mm_free h bp = h := by
  unfold mm_free
  split
  · rfl
  · next heq => rw [hb] at heq; cases heq

/-- Releasing an allocated block preserves the heap invariant and every
other allocated block (src/mm.c mm_free: mark free, insert, coalesce). -/
theorem free_spec {h : Heap} {bp : Nat} {b : Blk}
    (hInv : HeapInv h) (hb : h.lookup bp = some b) (hal : b.alloc = true) :
    HeapInv (mm_free h bp) ∧
    (∀ a c, a ≠ bp → h.lookup a = some c → c.alloc = true →
      (mm_free h bp).lookup a = some c) ∧
    sumSizes (mm_free h bp).blocks = sumSizes h.blocks ∧
    (mm_free h bp).budget = h.budget := by
  obtain ⟨hV, hS, hP⟩ := hInv
  have hg : ∀ bb : Blk, (Blk.mk bb.size false bb.data).size = bb.size := fun _ => rfl
  unfold mm_free
  split
  · next heq => rw [hb] at heq; cases heq
  · next bx heq =>
    rw [hb] at heq
    cases heq
    have hmark := blkAt_setAt_self (g := fun bb => Blk.mk bb.size false bb.data) hb
    have hnotent : ∀ l2 ∈ h.fl, ∀ e ∈ l2, e.1 ≠ bp := by
      intro l2 hl2 e he hne
      rcases tagAt_some.1 (hV l2 hl2 e he) with ⟨c, hc, _, hca⟩
      rw [hne, hb] at hc
      cases hc
      rw [hal] at hca
      cases hca
    have hInv6 : HeapInv
        { blocks := setAt (fun bb => Blk.mk bb.size false bb.data) h.blocks hBase bp,
          fl := add_free h.fl bp b.size, budget := h.budget } := by
      refine ⟨?_, ?_, ?_⟩
      · intro l2 hl2 e he
        rcases mem_add_free hl2 with hl2a | ⟨l0, hl0, rfl⟩
        · rcases tagAt_some.1 (hV l2 hl2a e he) with ⟨c, hc, hcs, hca⟩
          exact tagAt_some.2 ⟨c, blkAt_setAt_other hg hc (hnotent l2 hl2a e he), hcs, hca⟩
        · rcases mem_insEntry.1 he with rfl | hel0
          · exact tagAt_some.2 ⟨_, hmark, rfl, rfl⟩
          · rcases tagAt_some.1 (hV l0 hl0 e hel0) with ⟨c, hc, hcs, hca⟩
            exact tagAt_some.2 ⟨c, blkAt_setAt_other hg hc (hnotent l0 hl0 e hel0), hcs, hca⟩
      · intro l2 hl2
        rcases mem_add_free hl2 with hl2a | ⟨l0, hl0, rfl⟩
        · exact hS l2 hl2a
        · exact pairwise_insEntry (hS l0 hl0)
      · intro x hx
        rcases mem_setAt hx with h1 | ⟨y, hy, rfl⟩
        · exact hP x h1
        · exact hP y hy
    rcases coalesce_spec hInv6 hmark rfl with ⟨hI2, _, hAP2, hsum2, hbud2⟩
    refine ⟨hI2, ?_, ?_, hbud2⟩
    · intro a c hne hc hca
      exact hAP2 a c (blkAt_setAt_other hg hc hne) hca
    · rw [hsum2]
      exact sumSizes_setAt hg _ _ _

/-- Allocation preserves the heap invariant and every allocated block, and
a returned address holds an allocated block that was not allocated before
the call. -/
theorem malloc_spec {h : Heap} {n : Nat}
    (hInv : HeapInv h) :
    HeapInv (mm_malloc h n).2 ∧
    AllocPres h (mm_malloc h n).2 ∧
    (∀ q, (mm_malloc h n).1 = some q →
      (∃ b2, (mm_malloc h n).2.lookup q = some b2 ∧ b2.alloc = true) ∧
      (∀ c, h.lookup q = some c → c.alloc = false)) := by
  simp only [mm_malloc]
  split
  · exact ⟨hInv, fun a c hc _ => hc, fun q hq => by cases hq⟩
  · next hn0 =>
    split
    · next e hfit =>
      rcases findFit_mem hfit with ⟨l0, hl0, hel0⟩
      rcases tagAt_some.1 (hInv.1 l0 hl0 e hel0) with ⟨c, hc, hcs, hca⟩
      rcases place_spec hInv hc hca (align_size_min n) with
        ⟨hI, hret, hblk, hAP, _, _⟩
      refine ⟨hI, hAP, ?_⟩
      intro q hq
      rw [hret] at hq
      cases hq
      exact ⟨hblk, fun c2 hc2 => by rw [hc2] at hc; cases hc; exact hca⟩
    · next hfit =>
      split
      · exact ⟨hInv, fun a c hc _ => hc, fun q hq => by cases hq⟩
      · next r hext =>
        have hbpos : 0 < max (align_size n) CHUNKSIZE := by
          have h1 := align_size_min n
          have h2 : 0 < DSIZE := by norm_num [DSIZE, WSIZE]
          omega
        rcases extend_spec hInv hbpos hext with ⟨hI1, ⟨b2, hb2, hb2f⟩, hAP1, _, hnal⟩
        rcases place_spec hI1 hb2 hb2f (align_size_min n) with
          ⟨hI, hret, hblk, hAP, _, _⟩
        refine ⟨hI, ?_, ?_⟩
        · intro a c hc hca
          exact hAP a c (hAP1 a c hc hca) hca
        · intro q hq
          rw [hret] at hq
          cases hq
          exact ⟨hblk, hnal⟩

/-- The in-place absorb of mm_realloc case 1 preserves the heap invariant
and every other allocated block; the block at bp becomes the allocated
merge of the two blocks and the free lists only lose the neighbour's
entry. -/
theorem absorb_inv {h : Heap} {bp : Nat} {b nb : Blk}
    (hInv : HeapInv h) (hb : h.lookup bp = some b) (hbal : b.alloc = true)
    (hnb : h.lookup (bp + b.size) = some nb) (hnbf : nb.alloc = false) :
    HeapInv (absorbHeap h bp (bp + b.size)) ∧
    (absorbHeap h bp (bp + b.size)).lookup bp = some (mergedBlk true b nb) ∧
    (∀ a c, a ≠ bp → h.lookup a = some c → c.alloc = true →
      (absorbHeap h bp (bp + b.size)).lookup a = some c) ∧
    sumSizes (absorbHeap h bp (bp + b.size)).blocks = sumSizes h.blocks ∧
    (absorbHeap h bp (bp + b.size)).budget = h.budget := by
  obtain ⟨hV, hS, hP⟩ := hInv
  have hbpos : 0 < b.size := hP b (blkAt_mem hb)
  have hmerge := blkAt_merge2At_self true hb hnb hbpos
  have hnotbp : ∀ l2 ∈ h.fl, ∀ e ∈ l2, e.1 ≠ bp := by
    intro l2 hl2 e he hne
    rcases tagAt_some.1 (hV l2 hl2 e he) with ⟨c, hc, _, hca⟩
    rw [hne, hb] at hc
    cases hc
    rw [hbal] at hca
    cases hca
  refine ⟨⟨?_, ?_, ?_⟩, hmerge, ?_, sumSizes_merge2At _ _ _ _, rfl⟩
  · -- flValid
    intro l2 hl2 e he
    rcases mem_pop_free hl2 with ⟨l0, hl0, hsub, hne⟩
    rcases tagAt_some.1 (hV l0 hl0 e (hsub.mem he)) with ⟨c, hc, hcs, hca⟩
    exact tagAt_some.2
      ⟨c, blkAt_merge2At_other hb hc (hnotbp l0 hl0 e (hsub.mem he)) (hne e he), hcs, hca⟩
  · -- flSorted
    intro l2 hl2
    rcases mem_pop_free hl2 with ⟨l0, hl0, hsub, _⟩
    exact List.Pairwise.sublist hsub (hS l0 hl0)
  · -- posBlocks
    intro x hx
    rcases mem_merge2At hx with h1 | ⟨u, hu, v, hv, hsz⟩
    · exact hP x h1
    · have := hP u hu
      omega
  · -- other allocated blocks
    intro a c hne hc hca
    have hne2 : a ≠ bp + b.size := by
      intro hpe
      rw [hpe, hnb] at hc
      cases hc
      rw [hnbf] at hca
      cases hca
    exact blkAt_merge2At_other hb hc hne hne2

/-- Coalescing is the identity when the right neighbour is absent or
allocated and the left neighbour is absent or allocated. -/
theorem coalesce_no_merge {h1 : Heap} {p : Nat} {x : Blk}
    (hx : h1.lookup p = some x)
    (hr : h1.lookup (p + x.size) = none ∨
      ∃ nb, h1.lookup (p + x.size) = some nb ∧ nb.alloc = true)
    (hl : blkLeft h1.blocks hBase p = none ∨
      ∃ lv, blkLeft h1.blocks hBase p = some lv ∧ lv.2.alloc = true) :
    coalesce h1 p = (h1, p) := by
  have hmid : ∀ hh, hh = h1 → coalesceL hh p = (h1, p) := by
    intro hh hhe
    subst hhe
    unfold coalesceL
    split
    · next heq => rfl
    · next b1 heq =>
      split
      · next lv hlv =>
        rcases hl with hl1 | ⟨lv2, hlv2, hlal⟩
        · rw [hl1] at hlv
          cases hlv
        · rw [hlv2] at hlv
          cases hlv
          rw [if_pos hlal]
      · next hlv => rfl
  unfold coalesce
  split
  · next heq => rfl
  · next bx heq =>
    rw [hx] at heq
    cases heq
    split
    · next nb hnb =>
      rcases hr with hr1 | ⟨nb2, hnb2, hnal⟩
      · rw [hr1] at hnb
        cases hnb
      · rw [hnb2] at hnb
        cases hnb
        rw [if_pos hnal]
        exact hmid h1 rfl
    · next hnb => exact hmid h1 rfl

/-- Coalescing merges only to the left when the right neighbour is absent
and the left neighbour is free. -/
theorem coalesce_left_merge {h1 : Heap} {p q : Nat} {x lb : Blk}
    (hx : h1.lookup p = some x)
    (hr : h1.lookup (p + x.size) = none)
    (hl : blkLeft h1.blocks hBase p = some (q, lb)) (hlf : lb.alloc = false) :
    coalesce h1 p = (mergeHeap h1 q lb.size x.size, q) := by
  unfold coalesce
  split
  · next heq => rw [hx] at heq; cases heq
  · next bx heq =>
    rw [hx] at heq
    cases heq
    split
    · next nb hnb =>
      rw [hr] at hnb
      cases hnb
    · next hnb =>
      unfold coalesceL
      split
      · next heq2 => rw [hx] at heq2; cases heq2
      · next b1 heq2 =>
        rw [hx] at heq2
        cases heq2
        split
        · next lv hlv =>
          rw [hl] at hlv
          cases hlv
          rw [if_neg (by rw [hlf]; exact Bool.false_ne_true)]
        · next hlv =>
          rw [hl] at hlv
          cases hlv

/-- When the last block before the epilogue is allocated, the extension
does not coalesce: extend_heap returns the old region end and the heap
with exactly one appended free block. -/
theorem extend_at_end {h : Heap} {bytes bp2 bp : Nat} {h1 : Heap} {b : Blk}
    (hP : posBlocks h) (hb : h.lookup bp = some b) (hbal : b.alloc = true)
    (hlast : bp + b.size = h.endBp) (hpos : 0 < bytes)
    (hok : extend_heap h bytes = some (bp2, h1)) :
    bp2 = h.endBp ∧
    h1 = { blocks := h.blocks ++ [Blk.mk (ALIGN bytes) false (fun _ => 0)],
           fl := add_free h.fl h.endBp (ALIGN bytes),
           budget := h.budget - ALIGN bytes } := by
  have hapos : 0 < ALIGN bytes := lt_of_lt_of_le hpos (ALIGN_ge bytes)
  have hPapp : ∀ x ∈ h.blocks ++ [Blk.mk (ALIGN bytes) false (fun _ => 0)], 0 < x.size := by
    intro x hx
    rcases List.mem_append.1 hx with h2 | h2
    · exact hP x h2
    · rw [List.mem_singleton.1 h2]
      exact hapos
  have hlookE : Heap.lookup
      { blocks := h.blocks ++ [Blk.mk (ALIGN bytes) false (fun _ => 0)],
        fl := add_free h.fl h.endBp (ALIGN bytes),
        budget := h.budget - ALIGN bytes } h.endBp =
      some (Blk.mk (ALIGN bytes) false (fun _ => 0)) := blkAt_append_end hP
  have hrightE : Heap.lookup
      { blocks := h.blocks ++ [Blk.mk (ALIGN bytes) false (fun _ => 0)],
        fl := add_free h.fl h.endBp (ALIGN bytes),
        budget := h.budget - ALIGN bytes }
      (h.endBp + (Blk.mk (ALIGN bytes) false (fun _ => 0)).size) = none := by
    show blkAt (h.blocks ++ [Blk.mk (ALIGN bytes) false (fun _ => 0)]) hBase
      (h.endBp + ALIGN bytes) = none
    have h3 := blkAt_none_end hBase hPapp
    rwa [sumSizes_append,
      show hBase + (sumSizes h.blocks + sumSizes [Blk.mk (ALIGN bytes) false (fun _ => 0)]) =
        h.endBp + ALIGN bytes from by
      show hBase + (sumSizes h.blocks + (ALIGN bytes + 0)) =
        (hBase + sumSizes h.blocks) + ALIGN bytes
      omega] at h3
  have hleftE : blkLeft
      (h.blocks ++ [Blk.mk (ALIGN bytes) false (fun _ => 0)]) hBase h.endBp =
      some (bp, b) := by
    have happ : blkAt (h.blocks ++ [Blk.mk (ALIGN bytes) false (fun _ => 0)]) hBase bp =
        some b := blkAt_append hb
    have h4 := blkLeft_of_blkAt hPapp happ
    rw [hlast] at h4
    exact h4
  simp only [extend_heap] at hok
  split at hok
  · cases hok
  · next hbud =>
    rw [coalesce_no_merge hlookE (Or.inl hrightE) (Or.inr ⟨(bp, b), hleftE, hbal⟩)] at hok
    cases hok
    exact ⟨rfl, rfl⟩

/-- When the last block before the epilogue is free, the extension
coalesces with it: extend_heap returns that block's address and the heap
in which the appended chunk has been merged into it. -/
theorem extend_into_last {h : Heap} {bytes bp2 q : Nat} {h1 : Heap} {nb : Blk}
    (hP : posBlocks h) (hq : h.lookup q = some nb) (hnf : nb.alloc = false)
    (hlast : q + nb.size = h.endBp) (hpos : 0 < bytes)
    (hok : extend_heap h bytes = some (bp2, h1)) :
    bp2 = q ∧
    h1 = mergeHeap
      { blocks := h.blocks ++ [Blk.mk (ALIGN bytes) false (fun _ => 0)],
        fl := add_free h.fl h.endBp (ALIGN bytes),
        budget := h.budget - ALIGN bytes } q nb.size (ALIGN bytes) := by
  have hapos : 0 < ALIGN bytes := lt_of_lt_of_le hpos (ALIGN_ge bytes)
  have hPapp : ∀ x ∈ h.blocks ++ [Blk.mk (ALIGN bytes) false (fun _ => 0)], 0 < x.size := by
    intro x hx
    rcases List.mem_append.1 hx with h2 | h2
    · exact hP x h2
    · rw [List.mem_singleton.1 h2]
      exact hapos
  have hlookE : Heap.lookup
      { blocks := h.blocks ++ [Blk.mk (ALIGN bytes) false (fun _ => 0)],
        fl := add_free h.fl h.endBp (ALIGN bytes),
        budget := h.budget - ALIGN bytes } h.endBp =
      some (Blk.mk (ALIGN bytes) false (fun _ => 0)) := blkAt_append_end hP
  have hrightE : Heap.lookup
      { blocks := h.blocks ++ [Blk.mk (ALIGN bytes) false (fun _ => 0)],
        fl := add_free h.fl h.endBp (ALIGN bytes),
        budget := h.budget - ALIGN bytes }
      (h.endBp + (Blk.mk (ALIGN bytes) false (fun _ => 0)).size) = none := by
    show blkAt (h.blocks ++ [Blk.mk (ALIGN bytes) false (fun _ => 0)]) hBase
      (h.endBp + ALIGN bytes) = none
    have h3 := blkAt_none_end hBase hPapp
    rwa [sumSizes_append,
      show hBase + (sumSizes h.blocks + sumSizes [Blk.mk (ALIGN bytes) false (fun _ => 0)]) =
        h.endBp + ALIGN bytes from by
      show hBase + (sumSizes h.blocks + (ALIGN bytes + 0)) =
        (hBase + sumSizes h.blocks) + ALIGN bytes
      omega] at h3
  have hleftE : blkLeft
      (h.blocks ++ [Blk.mk (ALIGN bytes) false (fun _ => 0)]) hBase h.endBp =
      some (q, nb) := by
    have happ : blkAt (h.blocks ++ [Blk.mk (ALIGN bytes) false (fun _ => 0)]) hBase q =
        some nb := blkAt_append hq
    have h4 := blkLeft_of_blkAt hPapp happ
    rw [hlast] at h4
    exact h4
  simp only [extend_heap] at hok
  split at hok
  · cases hok
  · next hbud =>
    rw [coalesce_left_merge hlookE hrightE hleftE hnf] at hok
    cases hok
    exact ⟨rfl, rfl⟩

/-- The payload copy touches only the data bytes of the destination block:
the invariant survives and every block keeps its address, size and
allocation bit; blocks other than the destination are untouched. -/
theorem memcpy_inv {h : Heap} (dst : Nat) (src : Nat → Nat) (n2 : Nat)
    (hInv : HeapInv h) :
    HeapInv (memcpyAt h dst src n2) ∧
    (∀ a c, h.lookup a = some c → a ≠ dst → (memcpyAt h dst src n2).lookup a = some c) := by
  obtain ⟨hV, hS, hP⟩ := hInv
  have hg : ∀ bb : Blk,
      (Blk.mk bb.size bb.alloc (fun i => if i < n2 then src i else bb.data i)).size = bb.size :=
    fun _ => rfl
  have hother : ∀ a c, h.lookup a = some c → a ≠ dst →
      (memcpyAt h dst src n2).lookup a = some c :=
    fun a c hc hne => blkAt_setAt_other hg hc hne
  refine ⟨⟨?_, ?_, ?_⟩, hother⟩
  · intro l2 hl2 e he
    rcases tagAt_some.1 (hV l2 hl2 e he) with ⟨c, hc, hcs, hca⟩
    by_cases hde : e.1 = dst
    · subst hde
      exact tagAt_some.2 ⟨_, blkAt_setAt_self hc, hcs, hca⟩
    · exact tagAt_some.2 ⟨c, hother e.1 c hc hde, hcs, hca⟩
  · exact hS
  · intro x hx
    rcases mem_setAt hx with h1 | ⟨y, hy, rfl⟩
    · exact hP x h1
    · exact hP y hy

/-- mm_init establishes the heap invariant. -/
theorem init_spec {budget : Nat} {h : Heap} (hi : mm_init budget = some h) :
    HeapInv h := by
  unfold mm_init at hi
  split at hi
  · cases hi
  · next hbud =>
    split at hi
    · cases hi
    · next r heq =>
      cases hi
      have hbase : HeapInv
          { blocks := [], fl := List.replicate LISTSIZE [],
            budget := budget - (LISTSIZE + 4) * WSIZE } := by
        refine ⟨?_, ?_, ?_⟩
        · intro l2 hl2 e he
          rw [List.eq_of_mem_replicate hl2] at he
          cases he
        · intro l2 hl2
          rw [List.eq_of_mem_replicate hl2]
          exact List.Pairwise.nil
        · intro x hx
          cases hx
      have hpos : 0 < INITSIZE := by norm_num [INITSIZE, DSIZE, WSIZE]
      exact (extend_spec hbase hpos heq).1

/-- Every defined (ok) execution of mm_realloc on a pointer that is not a
free block preserves the heap invariant. -/
theorem realloc_ok_spec {h : Heap} {bp n : Nat} {r0 : Option Nat} {h2 : Heap}
    (hInv : HeapInv h) (hvalid : ∀ c, h.lookup bp = some c → c.alloc = true)
    (he : mm_realloc h bp n = .ok r0 h2) :
    HeapInv h2 := by
  have hCpos : (0:Nat) < CHUNKSIZE := by norm_num [CHUNKSIZE, DSIZE, WSIZE]
  simp only [mm_realloc] at he
  split at he
  · cases he
    exact hInv
  · next hn0 =>
    split at he
    · cases he
      exact hInv
    · next b heqb =>
      have hbal : b.alloc = true := hvalid b heqb
      split at he
      · cases he
        exact hInv
      · next hsle =>
        split at he
        · next nb heqnb =>
          split at he
          · next hnbal =>
            split at he
            · next h1 heqm =>
              cases he
            · next q h1 heqm =>
              cases he
              have hms := malloc_spec (h := h) (n := align_size n) hInv
              rw [heqm] at hms
              obtain ⟨hI1, hAP1, hqfacts⟩ := hms
              obtain ⟨⟨b2, hb2, hb2al⟩, hqold⟩ := hqfacts q rfl
              have hb1 : Heap.lookup h1 bp = some b := hAP1 bp b heqb hbal
              have hqne : bp ≠ q := by
                intro hqe
                have := hqold b (by rw [← hqe]; exact heqb)
                rw [hbal] at this
                cases this
              rw [hb1]
              simp only [Option.getD_some]
              obtain ⟨hIm, hmother⟩ :=
                memcpy_inv q b.data b.size hI1
              exact (free_spec hIm (hmother bp b hb1 hqne) hbal).1
          · next hnbal =>
            have hnbf : nb.alloc = false := by
              cases hx : nb.alloc
              · rfl
              · exact absurd hx hnbal
            split at he
            · cases he
              exact (absorb_inv hInv heqb hbal heqnb hnbf).1
            · next hins =>
              split at he
              · cases he
                exact hInv
              · next r heqx =>
                split at he
                · next hlast =>
                  cases he
                  have hpos2 : 0 < max CHUNKSIZE (align_size n - b.size - nb.size) := by
                    omega
                  obtain ⟨hI2, ⟨b3, hb3, hb3f⟩, hAP2, _, _⟩ := extend_spec hInv hpos2 heqx
                  obtain ⟨hr1, _⟩ := extend_into_last hInv.2.2 heqnb hnbf hlast hpos2 heqx
                  rw [hr1] at hb3
                  exact (absorb_inv hI2 (hAP2 bp b heqb hbal) hbal hb3 hb3f).1
                · cases he
        · next heqnb =>
          split at he
          · cases he
            exact hInv
          · next r heqx =>
            cases he
            have hlast : bp + b.size = h.endBp := by
              rcases blkAt_next heqb with ⟨b4, hb4⟩ | h4
              · have h5 : blkAt h.blocks hBase (bp + b.size) = none := heqnb
                rw [h5] at hb4
                cases hb4
              · exact h4
            have hpos2 : 0 < max CHUNKSIZE (align_size n - b.size) := by
              omega
            obtain ⟨hI2, ⟨b3, hb3, hb3f⟩, hAP2, _, _⟩ := extend_spec hInv hpos2 heqx
            obtain ⟨hr1, _⟩ := extend_at_end hInv.2.2 heqb hbal hlast hpos2 heqx
            rw [hr1, ← hlast] at hb3
            exact (absorb_inv hI2 (hAP2 bp b heqb hbal) hbal hb3 hb3f).1

/-- C7: on every heap reachable from a successful initialization through
valid public calls, every class list of the free-list directory is
non-decreasing in stored size for any two entries in list order, the
stored sizes are exactly the header sizes of the (free) blocks the entries
name, and the insert operation places a block before the first entry whose
size is greater than or equal to its own (the strictly-smaller entries are
exactly the kept initial segment). -/
theorem C7_freelist_ordering (h : Heap) (hr : Reach h) :
    (∀ l ∈ h.fl, List.Pairwise (fun a b : FEntry => a.2 ≤ b.2) l) ∧
    flValid h ∧
    (∀ (e : FEntry) (l : List FEntry),
      insEntry e l =
        l.takeWhile (fun x => x.2 < e.2) ++ e :: l.dropWhile (fun x => x.2 < e.2)) := by
  have hInv : HeapInv h := by
    induction hr with
    | start bud h0 hi => exact init_spec hi
    | step_malloc h0 n hr0 ih => exact (malloc_spec ih).1
    | step_free h0 bp b hr0 hb hal ih => exact (free_spec ih hb hal).1
    | step_realloc h0 bp n r h2 hr0 hv he ih => exact realloc_ok_spec ih hv he
  exact ⟨hInv.2.1, hInv.1, insEntry_takeWhile_dropWhile⟩

/-- Witness for C7: the heap produced by mm_init with budget 304 is
reachable, and the theorem instantiates on it. -/
theorem C7_freelist_ordering_witness :
    (∀ l ∈ hB0.fl, List.Pairwise (fun a b : FEntry => a.2 ≤ b.2) l) ∧
    flValid hB0 ∧
    (∀ (e : FEntry) (l : List FEntry),
      insEntry e l =
        l.takeWhile (fun x => x.2 < e.2) ++ e :: l.dropWhile (fun x => x.2 < e.2)) :=
  C7_freelist_ordering hB0 (Reach.start 304 hB0 rfl)

/-- C10: when mm_realloc grows a block in place, the resulting allocated
block absorbs the whole right neighbour without splitting off a free
remainder.  First part: with an ordinary free right neighbour of
sufficient combined capacity, the result is the same address, the new
stored size is exactly the old size plus the neighbour's entire size
(which can exceed the rounded request without bound), and the free lists
only lose the neighbour's entry.  Second part: with the epilogue as right
neighbour and sufficient growth budget, the block absorbs the entire
extension chunk, which is at least CHUNKSIZE bytes. -/
theorem C10_inplace_growth_absorbs_whole :
    (∀ (h : Heap) (bp n : Nat) (b nb : Blk), n ≠ 0 → 0 < b.size →
      h.lookup bp = some b → b.size < align_size n →
      h.lookup (bp + b.size) = some nb → nb.alloc = false →
      align_size n ≤ b.size + nb.size →
      mm_realloc h bp n = .ok (some bp) (absorbHeap h bp (bp + b.size)) ∧
      (absorbHeap h bp (bp + b.size)).tagAt bp = some (b.size + nb.size, true) ∧
      (absorbHeap h bp (bp + b.size)).fl = pop_free h.fl (bp + b.size)) ∧
    (∀ (h : Heap) (bp n : Nat) (b : Blk), n ≠ 0 → posBlocks h →
      h.lookup bp = some b → b.alloc = true → b.size < align_size n →
      h.lookup (bp + b.size) = none →
      ¬ h.budget < ALIGN (max CHUNKSIZE (align_size n - b.size)) →
      ∃ h2, mm_realloc h bp n = .ok (some bp) h2 ∧
        h2.tagAt bp =
          some (b.size + ALIGN (max CHUNKSIZE (align_size n - b.size)), true) ∧
        CHUNKSIZE ≤ ALIGN (max CHUNKSIZE (align_size n - b.size))) := by
  constructor
  · intro h bp n b nb hn0 hbpos hb hgrow hnb hnbf hfit
    refine ⟨?_, ?_, rfl⟩
    · simp only [mm_realloc]
      split
      · next h0 => exact absurd h0 hn0
      · split
        · next heq => rw [hb] at heq; cases heq
        · next b2 heq =>
          rw [hb] at heq
          cases heq
          split
          · next hle => omega
          · split
            · next nb2 heq2 =>
              rw [hnb] at heq2
              cases heq2
              split
              · next hal => rw [hnbf] at hal; cases hal
              · rfl
            · next heq2 =>
              rw [hnb] at heq2
              cases heq2
    · have hm := blkAt_merge2At_self true hb hnb hbpos
      exact tagAt_some.2 ⟨_, hm, rfl, rfl⟩
  · intro h bp n b hn0 hP hb hbal hgrow hepi hbud
    have hCpos : (0:Nat) < CHUNKSIZE := by norm_num [CHUNKSIZE, DSIZE, WSIZE]
    have hpos2 : 0 < max CHUNKSIZE (align_size n - b.size) := by omega
    have hlast : bp + b.size = h.endBp := by
      rcases blkAt_next hb with ⟨b4, hb4⟩ | h4
      · have h5 : blkAt h.blocks hBase (bp + b.size) = none := hepi
        rw [h5] at hb4
        cases hb4
      · exact h4
    have hchunk : CHUNKSIZE ≤ ALIGN (max CHUNKSIZE (align_size n - b.size)) :=
      le_trans (le_max_left _ _) (ALIGN_ge _)
    simp only [mm_realloc]
    split
    · next h0 => exact absurd h0 hn0
    · split
      · next heq => rw [hb] at heq; cases heq
      · next b2 heq =>
        rw [hb] at heq
        cases heq
        split
        · next hle => omega
        · split
          · next nb2 heq2 =>
            rw [hepi] at heq2
            cases heq2
          · next heq2 =>
            split
            · next heq3 =>
              simp only [extend_heap] at heq3
              split at heq3
              · next hbud2 => exact absurd hbud2 hbud
              · cases heq3
            · next r heq3 =>
              obtain ⟨hr1, hr2⟩ := extend_at_end hP hb hbal hlast hpos2 heq3
              refine ⟨absorbHeap r.2 bp (bp + b.size), rfl, ?_, hchunk⟩
              rw [hr2]
              have hbE : blkAt
                  (h.blocks ++ [Blk.mk (ALIGN (max CHUNKSIZE (align_size n - b.size))) false
                    (fun _ => 0)]) hBase bp = some b := blkAt_append hb
              have hnbE : blkAt
                  (h.blocks ++ [Blk.mk (ALIGN (max CHUNKSIZE (align_size n - b.size))) false
                    (fun _ => 0)]) hBase (bp + b.size) =
                  some (Blk.mk (ALIGN (max CHUNKSIZE (align_size n - b.size))) false
                    (fun _ => 0)) := by
                rw [hlast]
                exact blkAt_append_end hP
              have hm := blkAt_merge2At_self true hbE hnbE (hP b (blkAt_mem hb))
              exact tagAt_some.2 ⟨_, hm, rfl, rfl⟩

/-- Witness for C10 on the concrete heap hA4: absorbing the 40-byte free
neighbour of the block at 160 yields an 80-byte allocated block with no
remainder, and growing the last block (at 240, right neighbour epilogue)
absorbs an entire CHUNKSIZE extension. -/
theorem C10_inplace_growth_absorbs_whole_witness :
    (mm_realloc hA4 160 50 = .ok (some 160) (absorbHeap hA4 160 200) ∧
      (absorbHeap hA4 160 200).tagAt 160 = some (80, true) ∧
      (absorbHeap hA4 160 200).fl = pop_free hA4.fl 200) ∧
    (∃ h2, mm_realloc hA4 240 100 = .ok (some 240) h2 ∧
      h2.tagAt 240 = some (64 + ALIGN (max CHUNKSIZE (align_size 100 - 64)), true) ∧
      CHUNKSIZE ≤ ALIGN (max CHUNKSIZE (align_size 100 - 64))) :=
  ⟨C10_inplace_growth_absorbs_whole.1 hA4 160 50
      (Blk.mk 40 true (fun _ => 0)) (Blk.mk 40 false (fun _ => 0))
      (by decide) (by decide) rfl (by decide) rfl rfl (by decide),
    C10_inplace_growth_absorbs_whole.2 hA4 240 100 (Blk.mk 64 true (fun _ => 0))
      (by decide) (by unfold posBlocks; decide) rfl rfl (by decide) rfl (by decide)⟩

/-- C9: a successful resize of an allocated block to a larger size returns
an address whose block is allocated and whose payload agrees with the old
payload on every offset below the old payload capacity (block size minus
the header word), in every defined path: in-place absorb of a free right
neighbour, in-place growth at the epilogue, and allocate-copy-release. -/
theorem C9_resize_preserves_payload (h : Heap) (bp n q : Nat) (b : Blk) (h2 : Heap)
    (hInv : HeapInv h) (hb : h.lookup bp = some b) (hbal : b.alloc = true)
    (hgrow : b.size < align_size n)
    (he : mm_realloc h bp n = .ok (some q) h2) :
    ∃ b2, h2.lookup q = some b2 ∧ b2.alloc = true ∧
      ∀ i, i < b.size - WSIZE → b2.data i = b.data i := by
  have hCpos : (0:Nat) < CHUNKSIZE := by norm_num [CHUNKSIZE, DSIZE, WSIZE]
  have hbpos : 0 < b.size := hInv.2.2 b (blkAt_mem hb)
  simp only [mm_realloc] at he
  split at he
  · cases he
  · next hn0 =>
    split at he
    · next heq => rw [hb] at heq; cases heq
    · next b0 heqb =>
      rw [hb] at heqb
      cases heqb
      split at he
      · next hsle => omega
      · next hsle =>
        split at he
        · next nb heqnb =>
          split at he
          · next hnbal =>
            split at he
            · next h1 heqm =>
              cases he
            · next q1 h1 heqm =>
              cases he
              have hms := malloc_spec (h := h) (n := align_size n) hInv
              rw [heqm] at hms
              obtain ⟨hI1, hAP1, hqfacts⟩ := hms
              obtain ⟨⟨b2, hb2, hb2al⟩, hqold⟩ := hqfacts q rfl
              have hb1 : Heap.lookup h1 bp = some b := hAP1 bp b hb hbal
              have hqne : bp ≠ q := by
                intro hqe
                have := hqold b (by rw [← hqe]; exact hb)
                rw [hbal] at this
                cases this
              rw [hb1]
              simp only [Option.getD_some]
              obtain ⟨hIm, hmother⟩ :=
                memcpy_inv q b.data b.size hI1
              have hmem := blkAt_setAt_self
                (g := fun bb => Blk.mk bb.size bb.alloc
                  (fun i => if i < b.size then b.data i else bb.data i)) hb2
              have hbm : (memcpyAt h1 q b.data b.size).lookup bp = some b :=
                hmother bp b hb1 hqne
              have hfree := free_spec hIm hbm hbal
              refine ⟨Blk.mk b2.size b2.alloc
                (fun i => if i < b.size then b.data i else b2.data i), ?_, hb2al, ?_⟩
              · exact hfree.2.1 q _ (fun hqe => hqne hqe.symm) hmem hb2al
              · intro i hi
                have : i < b.size := by
                  have : (0:Nat) < WSIZE := by norm_num [WSIZE]
                  omega
                simp [this]
          · next hnbal =>
            have hnbf : nb.alloc = false := by
              cases hx : nb.alloc
              · rfl
              · exact absurd hx hnbal
            split at he
            · next hfit =>
              cases he
              have hm := blkAt_merge2At_self true hb heqnb hbpos
              refine ⟨mergedBlk true b nb, hm, rfl, ?_⟩
              intro i hi
              have hlt : i < b.size := by
                have : (0:Nat) < WSIZE := by norm_num [WSIZE]
                omega
              show (if i < b.size then b.data i else nb.data (i - b.size)) = b.data i
              rw [if_pos hlt]
            · next hfit =>
              split at he
              · cases he
              · next r heqx =>
                split at he
                · next hlast =>
                  cases he
                  have hpos2 : 0 < max CHUNKSIZE (align_size n - b.size - nb.size) := by
                    omega
                  obtain ⟨hI2, ⟨b3, hb3, hb3f⟩, hAP2, _, _⟩ := extend_spec hInv hpos2 heqx
                  obtain ⟨hr1, _⟩ :=
                    extend_into_last hInv.2.2 heqnb hnbf hlast hpos2 heqx
                  rw [hr1] at hb3
                  have hm := blkAt_merge2At_self true
                    (hAP2 bp b hb hbal) hb3 hbpos
                  refine ⟨mergedBlk true b b3, hm, rfl, ?_⟩
                  intro i hi
                  have hlt : i < b.size := by
                    have : (0:Nat) < WSIZE := by norm_num [WSIZE]
                    omega
                  show (if i < b.size then b.data i else b3.data (i - b.size)) = b.data i
                  rw [if_pos hlt]
                · cases he
        · next heqnb =>
          split at he
          · cases he
          · next r heqx =>
            cases he
            have hlast : bp + b.size = h.endBp := by
              rcases blkAt_next hb with ⟨b4, hb4⟩ | h4
              · have h5 : blkAt h.blocks hBase (bp + b.size) = none := heqnb
                rw [h5] at hb4
                cases hb4
              · exact h4
            have hpos2 : 0 < max CHUNKSIZE (align_size n - b.size) := by omega
            obtain ⟨hI2, ⟨b3, hb3, hb3f⟩, hAP2, _, _⟩ := extend_spec hInv hpos2 heqx
            obtain ⟨hr1, _⟩ := extend_at_end hInv.2.2 hb hbal hlast hpos2 heqx
            rw [hr1, ← hlast] at hb3
            have hm := blkAt_merge2At_self true (hAP2 bp b hb hbal) hb3 hbpos
            refine ⟨mergedBlk true b b3, hm, rfl, ?_⟩
            intro i hi
            have hlt : i < b.size := by
              have : (0:Nat) < WSIZE := by norm_num [WSIZE]
              omega
            show (if i < b.size then b.data i else b3.data (i - b.size)) = b.data i
            rw [if_pos hlt]

/-- Witness for C9 on the concrete heap hA4: growing the 40-byte block at
160 into its free right neighbour keeps every payload byte below the old
payload capacity. -/
theorem C9_resize_preserves_payload_witness :
    ∃ b2, (absorbHeap hA4 160 200).lookup 160 = some b2 ∧ b2.alloc = true ∧
      ∀ i, i < 40 - WSIZE → b2.data i = (Blk.mk 40 true (fun _ => 0)).data i :=
  C9_resize_preserves_payload hA4 160 50 160 (Blk.mk 40 true (fun _ => 0))
    (absorbHeap hA4 160 200)
    (by unfold HeapInv flValid flSorted posBlocks; decide) rfl rfl (by decide) rfl
